import Mathlib

/-!
# snowirbis/config: line-oriented configuration parser and typed accessors

A shallow embedding of `config.go` and a verification of its specification.

Modelling conventions.

* Text is a list of runes (`List Nat`, one number per Unicode code point). The
  source works on UTF-8 bytes; every separator it looks for (newline, space,
  tab, comma, `#`, `;`) is a single ASCII byte, which never occurs inside a
  multi-byte sequence, so on well-formed UTF-8 the byte-level and the
  rune-level readings of `Split`, `SplitN`, `Replace`, `Contains`, `TrimSpace`
  and `ToLower` coincide.
* Runes are written by code point: 9 tab, 10 newline, 13 carriage return,
  32 space, 35 `#`, 43 `+`, 44 `,`, 45 `-`, 48 to 57 the digits, 59 `;`.
* `unicode.ToLower` is embedded exactly on the ASCII range; above it Go consults
  its case table, which is taken as the parameter `lc`.
* The map `c.m` is a finite map read only through lookups; it is embedded as a
  lookup function.
* A Go `(value, error)` result is a pair whose second component is
  `Option varError`; `nil` slices are `[]`. A run-time panic is `none` of an
  enclosing `Option`.
-/

/-- Runes of a string literal, used to write concrete inputs. -/
def str (s : String) : List Nat := s.toList.map Char.toNat

/-! ## Go standard library functions used by the source -/

/-- Go `unicode.IsSpace`: the Latin-1 cases and the `White_Space` table. -/
def IsSpace (r : Nat) : Bool :=
  r == 9 || r == 10 || r == 11 || r == 12 || r == 13 || r == 32 || r == 0x85 || r == 0xA0
    || r == 0x1680 || (0x2000 ≤ r && r ≤ 0x200a) || r == 0x2028 || r == 0x2029
    || r == 0x202f || r == 0x205f || r == 0x3000

/-- Go `bytes.TrimSpace`: `TrimRightFunc (TrimLeftFunc s IsSpace) IsSpace`. -/
def TrimSpace (s : List Nat) : List Nat :=
  (s.dropWhile IsSpace).rdropWhile IsSpace

/-- Go `strings.Replace s old new (-1)` for one-rune `old` and `new`. -/
def Replace (s : List Nat) (old new : Nat) : List Nat :=
  s.map (fun r => if r = old then new else r)

/-- Go `bytes.Split s sep` for a one-rune separator: all the pieces between
separators, `count sep + 1` of them. -/
def Split (sep : Nat) : List Nat → List (List Nat)
  | [] => [[]]
  | r :: rs =>
    if r = sep then [] :: Split sep rs
    else
      match Split sep rs with
      | [] => [[r]]
      | p :: ps => (r :: p) :: ps

/-- Go `bytes.SplitN s sep 2` for a one-rune separator: cut at the first
separator, or the whole of `s` when there is none. -/
def SplitN (s : List Nat) (sep : Nat) : List (List Nat) :=
  match s.dropWhile (fun r => r != sep) with
  | [] => [s]
  | _ :: rest => [s.takeWhile (fun r => r != sep), rest]

/-- Go `unicode.ToLower`: explicit on ASCII, the case table `lc` above it. -/
def unicodeToLower (lc : Nat → Nat) (r : Nat) : Nat :=
  if r ≤ 0x7F then
    if 65 ≤ r ∧ r ≤ 90 then r + 32 else r
  else lc r

/-- Go `bytes.ToLower` and `strings.ToLower`: `unicode.ToLower` on every rune. -/
def ToLower (lc : Nat → Nat) (s : List Nat) : List Nat :=
  s.map (unicodeToLower lc)

/-- Go `strings.Contains s sub` for a one-rune `sub`. -/
def Contains (s : List Nat) (sub : Nat) : Bool :=
  s.contains sub

/-- The two errors of `strconv`: `ErrSyntax` and `ErrRange`. -/
inductive NumError
  | ErrSyntax
  | ErrRange
deriving DecidableEq, Repr

/-- The digit loop of Go `strconv.ParseUint` for a base between 2 and 36
(no underscores, no base prefix), on the digits still to read and the
accumulator `n`, a `uint64`. -/
def ParseUintLoop (base cutoff maxVal : Nat) : List Nat → Nat → Nat × Option NumError
  | [], n => (n, none)
  | c :: rest, n =>
    let d? : Option Nat :=
      if 48 ≤ c ∧ c ≤ 57 then some (c - 48)
      else if c ≤ 0x7F ∧ 97 ≤ (c ||| 32) ∧ (c ||| 32) ≤ 122 then some ((c ||| 32) - 97 + 10)
      else none
    match d? with
    | none => (0, some .ErrSyntax)
    | some d =>
      if d ≥ base then (0, some .ErrSyntax)
      else if n ≥ cutoff then (maxVal, some .ErrRange)
      else
        let n := (n * base) % 2 ^ 64
        let n1 := (n + d) % 2 ^ 64
        if n1 < n ∨ n1 > maxVal then (maxVal, some .ErrRange)
        else ParseUintLoop base cutoff maxVal rest n1

/-- Go `strconv.ParseUint s base bitSize` for `2 ≤ base ≤ 36` and
`1 ≤ bitSize ≤ 64`, the only case the source reaches (base 6, 12 bits). -/
def ParseUint (s : List Nat) (base bitSize : Nat) : Nat × Option NumError :=
  if s = [] then (0, some .ErrSyntax)
  else
    let cutoff := (2 ^ 64 - 1) / base + 1
    let maxVal := 2 ^ bitSize - 1
    ParseUintLoop base cutoff maxVal s 0

/-- Go `strconv.ParseInt s base bitSize`, under the same restriction. -/
def ParseInt (s : List Nat) (base bitSize : Nat) : Int × Option NumError :=
  match s with
  | [] => (0, some .ErrSyntax)
  | c :: rest =>
    let neg : Bool := c == 45
    let s1 := if c = 43 then rest else if c = 45 then rest else s
    match ParseUint s1 base bitSize with
    | (_, some .ErrSyntax) => (0, some .ErrSyntax)
    | (un, _) =>
      let cutoff := 2 ^ (bitSize - 1)
      if !neg && un ≥ cutoff then ((cutoff : Int) - 1, some .ErrRange)
      else if neg && un > cutoff then (-(cutoff : Int), some .ErrRange)
      else
        let n : Int := un
        (if neg then -n else n, none)

/-! ## Data model -/

/-- The sentinel errors `ENONE`, `EBADTYPE`, `EBADVAL`. -/
inductive ErrKind
  | ENONE
  | EBADTYPE
  | EBADVAL
deriving DecidableEq, Repr

/-- The dynamic payload of a `confvar` (Go `interface{}`), with the three
dynamic types the source ever stores. -/
inductive Dyn
  | bool (b : Bool)
  | strings (v : List (List Nat))
  | string (s : List Nat)
deriving DecidableEq, Repr

/-- The type tags `Bool`, `Array`, `String`, `Integer`. -/
inductive VarType
  | Bool
  | Array
  | String
  | Integer
deriving DecidableEq, Repr

/-- An accessor error: the sentinel, the key name and a type tag. -/
structure varError where
  err : ErrKind
  n : List Nat
  t : VarType
deriving DecidableEq, Repr

/-- A stored entry: type tag and payload. -/
structure confvar where
  Typ : VarType
  Val : Dyn
deriving DecidableEq, Repr

/-- The table: `m` is the map from key to entry. -/
structure Config where
  m : List Nat → Option confvar

/-- The map assignment `c.m[nam] = v`. -/
def Config.set (c : Config) (nam : List Nat) (v : confvar) : Config :=
  ⟨fun k => if k = nam then some v else c.m k⟩

/-- The table of `make(map[string]confvar)`. -/
def Config.new : Config := ⟨fun _ => none⟩

/-! ## The parser -/

/-- The body of the `for _, line := range lines` loop of `Parse`, applied to
the table built so far. Index expressions (`line[0]`, `parts[0]`, `parts[1]`)
are checked: an index out of range is the panic `none`. -/
def parseLine (lc : Nat → Nat) (c : Config) (line : List Nat) : Option Config :=
  let line := TrimSpace line
  let newline := line
  let newline := Replace newline 9 32
  let line := newline
  if line.length = 0 then some c
  else
    match line.get? 0 with
    | none => none
    | some b =>
      if b = 35 ∨ b = 59 then some c
      else
        let parts := SplitN line 32
        match parts.get? 0 with
        | none => none
        | some p0 =>
          let nam := ToLower lc p0
          if parts.length = 1 then some (c.set nam ⟨.Bool, .bool true⟩)
          else
            match parts.get? 1 with
            | none => none
            | some p1 =>
              if Contains p1 44 then
                let tmpB := Split 44 p1
                let tmpB := tmpB.map TrimSpace
                let tmpS := tmpB
                some (c.set nam ⟨.Array, .strings tmpS⟩)
              else some (c.set nam ⟨.String, .string (TrimSpace p1)⟩)

/-- Go `Parse`, on the buffer `buf` that `ioutil.ReadAll` returned without
error: split into lines and run the loop body on each, from the empty table. -/
def Parse (lc : Nat → Nat) (buf : List Nat) : Option Config :=
  let lines := Split 10 buf
  lines.foldlM (parseLine lc) Config.new

/-! ## The typed accessors -/

/-- Go `(*Config).Bool`. -/
def Config.Bool (lc : Nat → Nat) (c : Config) (name : List Nat) : Bool × Option varError :=
  let name := ToLower lc name
  match c.m name with
  | none => (false, none)
  | some e =>
    if e.Typ ≠ VarType.Bool then (false, some ⟨.EBADTYPE, name, .Bool⟩)
    else
      match e.Val with
      | .bool v => (v, none)
      | _ => (false, some ⟨.EBADVAL, name, .Bool⟩)

/-- Go `(*Config).Array`. -/
def Config.Array (lc : Nat → Nat) (c : Config) (name : List Nat) :
    List (List Nat) × Option varError :=
  let name := ToLower lc name
  match c.m name with
  | none => ([], some ⟨.ENONE, name, .Array⟩)
  | some e =>
    if e.Typ ≠ VarType.Array then ([], some ⟨.EBADTYPE, name, .Array⟩)
    else
      match e.Val with
      | .strings v => (v, none)
      | _ => ([], some ⟨.EBADVAL, name, .Array⟩)

/-- Go `(*Config).String`. -/
def Config.String (lc : Nat → Nat) (c : Config) (name : List Nat) :
    List Nat × Option varError :=
  let name := ToLower lc name
  match c.m name with
  | none => ([], some ⟨.ENONE, name, .String⟩)
  | some e =>
    if e.Typ ≠ VarType.String then ([], some ⟨.EBADTYPE, name, .String⟩)
    else
      match e.Val with
      | .string v => (v, none)
      | _ => ([], some ⟨.EBADVAL, name, .String⟩)

/-- Go `(*Config).Integer`. The type assertion `val.Val.(string)` is the
one-result form, which panics when the payload is not a string: `none`. -/
def Config.Integer (lc : Nat → Nat) (c : Config) (name : List Nat) :
    Option (Int × Option varError) :=
  let name := ToLower lc name
  match c.m name with
  | none => some (0, some ⟨.ENONE, name, .String⟩)
  | some val =>
    match val.Val with
    | .string s =>
      match ParseInt s 6 12 with
      | (_, some _) => some (0, some ⟨.EBADTYPE, name, .String⟩)
      | (int1, none) => some (int1, none)
    | _ => none

/-! ## Vocabulary of the specification -/

/-- The lines of the input. -/
def linesOf (buf : List Nat) : List (List Nat) := Split 10 buf

/-- A line as the parser reads it: trimmed, tabs turned into spaces. -/
def normLine (raw : List Nat) : List Nat := Replace (TrimSpace raw) 9 32

/-- A non-blank, non-comment line: non-empty after trimming and not starting
with `#` or `;`. -/
def isEntryLine (raw : List Nat) : Bool :=
  match TrimSpace raw with
  | [] => false
  | b :: _ => b != 35 && b != 59

/-- The key token of a line: the text before the first space. -/
def keyToken (raw : List Nat) : List Nat :=
  (normLine raw).takeWhile (fun r => r != 32)

/-- The value part of a line: the text after the first space, if there is one. -/
def valuePart (raw : List Nat) : Option (List Nat) :=
  match (normLine raw).dropWhile (fun r => r != 32) with
  | [] => none
  | _ :: v => some v

/-- The last non-blank, non-comment line whose lowercased key token is `q`. -/
def lastLineFor (lc : Nat → Nat) (q : List Nat) (lines : List (List Nat)) :
    Option (List Nat) :=
  lines.reverse.find? (fun raw => isEntryLine raw && ToLower lc (keyToken raw) == q)

/-- The entry a non-blank, non-comment line stores: a flag, an array or a string. -/
def entryOf (raw : List Nat) : confvar :=
  match valuePart raw with
  | none => ⟨.Bool, .bool true⟩
  | some v =>
    if Contains v 44 then ⟨.Array, .strings ((Split 44 v).map TrimSpace)⟩
    else ⟨.String, .string (TrimSpace v)⟩

/-- The loop body as a total function on tables. -/
def stepLine (lc : Nat → Nat) (c : Config) (raw : List Nat) : Config :=
  if isEntryLine raw = true then c.set (ToLower lc (keyToken raw)) (entryOf raw) else c

/-- The table `Parse` builds, in closed form. -/
def tableOf (lc : Nat → Nat) (buf : List Nat) : Config :=
  (linesOf buf).foldl (stepLine lc) Config.new

/-- A base-6 digit, `0` to `5`. -/
def isBase6Digit (r : Nat) : Bool := 48 ≤ r && r ≤ 53

/-- The base-6 value of a digit string, most significant digit first. -/
def base6Value (ds : List Nat) : Nat := ds.foldl (fun n d => 6 * n + (d - 48)) 0

/-- The string `s` is an optional `+` or `-` sign followed by one or more
digits `0` to `5`, and `v`, its signed base-6 value, fits 12 bits. -/
def IsBase6Literal (s : List Nat) (v : Int) : Prop :=
  ∃ sign digits : List Nat, s = sign ++ digits ∧ (sign = [] ∨ sign = [43] ∨ sign = [45]) ∧
    digits ≠ [] ∧ (∀ d ∈ digits, isBase6Digit d = true) ∧
    v = (if sign = [45] then -(base6Value digits : Int) else (base6Value digits : Int)) ∧
    -2048 ≤ v ∧ v ≤ 2047

/-- The payload of an entry has the dynamic type its tag names: a `bool`
under `Bool`, a `[]string` under `Array`, a `string` under `String`. -/
def confvar.wellTyped (e : confvar) : Bool :=
  match e.Typ, e.Val with
  | .Bool, .bool _ => true
  | .Array, .strings _ => true
  | .String, .string _ => true
  | _, _ => false

/-- What is assumed of Go's case table above ASCII where a claim depends on
it: a rune above ASCII lowers either to a rune above ASCII that the table
leaves fixed, or to a lowercase ASCII letter (as U+0130 does to `i` and
U+212A to `k`). -/
def CaseTableSound (lc : Nat → Nat) : Prop :=
  ∀ r, 0x7F < r → (0x7F < lc r ∧ lc (lc r) = lc r) ∨ (97 ≤ lc r ∧ lc r ≤ 122)

/-- The input with every `"\r\n"` replaced by `"\n"`: a carriage return
directly before a newline is dropped. -/
def dropCR : List Nat → List Nat
  | [] => []
  | r :: rest => if r = 13 ∧ rest.head? = some 10 then dropCR rest else r :: dropCR rest

/-! ## The loop body in closed form -/

theorem parseLine_eq (lc : Nat → Nat) (c : Config) (raw : List Nat) :
    parseLine lc c raw =
      some (if isEntryLine raw = true then c.set (ToLower lc (keyToken raw)) (entryOf raw)
            else c) := by
  unfold parseLine isEntryLine entryOf valuePart keyToken normLine
  dsimp only
  cases hT : TrimSpace raw with
  | nil => simp [Replace]
  | cons b t =>
    by_cases hb : b = 35 ∨ b = 59
    · rcases hb with rfl | rfl <;> simp [Replace]
    · have hb35 : b ≠ 35 := fun h => hb (Or.inl h)
      have hb59 : b ≠ 59 := fun h => hb (Or.inr h)
      obtain ⟨b1, t1, hL, hb1⟩ : ∃ b1 t1, Replace (b :: t) 9 32 = b1 :: t1 ∧
          ¬ (b1 = 35 ∨ b1 = 59) := by
        refine ⟨if b = 9 then 32 else b, Replace t 9 32, by simp [Replace], ?_⟩
        split <;> simp_all
      generalize Replace (b :: t) 9 32 = L at hL
      subst hL
      have hsplit := List.takeWhile_append_dropWhile (fun r => r != 32) (b1 :: t1)
      simp only [SplitN]
      cases hD : List.dropWhile (fun r => r != 32) (b1 :: t1) with
      | nil =>
        rw [hD, List.append_nil] at hsplit
        simp [hb35, hb59, hb1, hsplit]
      | cons s v =>
        by_cases hc : Contains v 44 = true <;> simp [hb35, hb59, hb1, hc]

theorem foldlM_parseLine (lc : Nat → Nat) (lines : List (List Nat)) (c : Config) :
    lines.foldlM (parseLine lc) c = some (lines.foldl (stepLine lc) c) := by
  induction lines generalizing c with
  | nil => rfl
  | cons raw rest ih =>
    rw [List.foldlM_cons, parseLine_eq]
    exact ih _

theorem Parse_eq (lc : Nat → Nat) (buf : List Nat) :
    Parse lc buf = some (tableOf lc buf) :=
  foldlM_parseLine lc _ _

theorem lastLineFor_cons (lc : Nat → Nat) (q raw : List Nat) (rest : List (List Nat)) :
    lastLineFor lc q (raw :: rest) =
      match lastLineFor lc q rest with
      | some r => some r
      | none =>
        if (isEntryLine raw && ToLower lc (keyToken raw) == q) = true then some raw else none := by
  unfold lastLineFor
  rw [List.reverse_cons, List.find?_append]
  cases List.find? (fun raw => isEntryLine raw && ToLower lc (keyToken raw) == q) rest.reverse with
  | some r => rfl
  | none =>
    by_cases h : (isEntryLine raw && ToLower lc (keyToken raw) == q) = true <;> simp [h]

theorem foldl_lookup (lc : Nat → Nat) (q : List Nat) (lines : List (List Nat)) (c : Config) :
    (lines.foldl (stepLine lc) c).m q =
      match lastLineFor lc q lines with
      | some raw => some (entryOf raw)
      | none => c.m q := by
  induction lines generalizing c with
  | nil => rfl
  | cons raw rest ih =>
    rw [List.foldl_cons, ih, lastLineFor_cons]
    cases lastLineFor lc q rest with
    | some r => rfl
    | none =>
      by_cases h1 : isEntryLine raw = true
      · by_cases h2 : ToLower lc (keyToken raw) = q
        · simp [stepLine, Config.set, h1, h2]
        · have h3 : ¬ q = ToLower lc (keyToken raw) := fun h => h2 h.symm
          simp [stepLine, Config.set, h1, h2, h3]
      · simp [stepLine, h1]

/-- The table maps `q` to the entry of the last non-blank, non-comment line
whose lowercased key token is `q`. -/
theorem tableOf_lookup (lc : Nat → Nat) (buf q : List Nat) :
    (tableOf lc buf).m q = (lastLineFor lc q (linesOf buf)).map entryOf := by
  unfold tableOf
  rw [foldl_lookup]
  cases lastLineFor lc q (linesOf buf) <;> rfl

theorem lastLineFor_some (lc : Nat → Nat) (q raw : List Nat) (lines : List (List Nat))
    (h : lastLineFor lc q lines = some raw) :
    raw ∈ lines ∧ isEntryLine raw = true ∧ ToLower lc (keyToken raw) = q := by
  unfold lastLineFor at h
  have h1 := List.find?_some h
  have h2 := List.mem_of_find?_eq_some h
  simp only [Bool.and_eq_true, beq_iff_eq] at h1
  exact ⟨List.mem_reverse.mp h2, h1.1, h1.2⟩

theorem lastLineFor_none (lc : Nat → Nat) (q : List Nat) (lines : List (List Nat)) :
    lastLineFor lc q lines = none ↔
      ∀ raw ∈ lines, isEntryLine raw = true → ToLower lc (keyToken raw) ≠ q := by
  unfold lastLineFor
  rw [List.find?_eq_none]
  simp only [List.mem_reverse, Bool.and_eq_true, beq_iff_eq, not_and]

/-! ## Facts about `Split` -/

theorem Split_ne_nil (sep : Nat) (s : List Nat) : Split sep s ≠ [] := by
  induction s with
  | nil => simp [Split]
  | cons r rs ih =>
    unfold Split
    split
    · simp
    · split <;> simp

theorem Split_cons_ne (sep r : Nat) (rs : List Nat) (h : r ≠ sep) :
    ∃ p ps, Split sep rs = p :: ps ∧ Split sep (r :: rs) = (r :: p) :: ps := by
  cases hS : Split sep rs with
  | nil => exact absurd hS (Split_ne_nil sep rs)
  | cons p ps =>
    refine ⟨p, ps, rfl, ?_⟩
    rw [Split, if_neg h, hS]

theorem Split_cons_eq (sep : Nat) (rs : List Nat) :
    Split sep (sep :: rs) = [] :: Split sep rs := by
  rw [Split, if_pos rfl]

theorem not_mem_of_mem_Split (sep : Nat) (s p : List Nat) (h : p ∈ Split sep s) :
    sep ∉ p := by
  induction s generalizing p with
  | nil =>
    simp only [Split, List.mem_singleton] at h
    subst h
    simp
  | cons r rs ih =>
    by_cases hr : r = sep
    · subst hr
      rw [Split_cons_eq] at h
      rcases List.mem_cons.mp h with rfl | h
      · simp
      · exact ih p h
    · obtain ⟨p0, ps, h1, h2⟩ := Split_cons_ne sep r rs hr
      rw [h2] at h
      rcases List.mem_cons.mp h with rfl | h
      · have := ih p0 (by rw [h1]; exact List.mem_cons_self _ _)
        intro hm
        rcases List.mem_cons.mp hm with rfl | hm
        · exact hr rfl
        · exact this hm
      · exact ih p (by rw [h1]; exact List.mem_cons_of_mem _ h)

theorem Split_of_not_mem (sep : Nat) (s : List Nat) (h : sep ∉ s) : Split sep s = [s] := by
  induction s with
  | nil => rfl
  | cons r rs ih =>
    have hr : r ≠ sep := fun e => h (e ▸ List.mem_cons_self _ _)
    have hrs : sep ∉ rs := fun m => h (List.mem_cons_of_mem _ m)
    rw [Split, if_neg hr, ih hrs]

theorem Split_length (sep : Nat) (s : List Nat) :
    (Split sep s).length = s.count sep + 1 := by
  induction s with
  | nil => rfl
  | cons r rs ih =>
    by_cases hr : r = sep
    · subst hr
      rw [Split_cons_eq, List.length_cons, ih, List.count_cons_self]
    · obtain ⟨p0, ps, h1, h2⟩ := Split_cons_ne sep r rs hr
      rw [h2, List.length_cons, List.count_cons_of_ne (fun e => hr e.symm), ← ih, h1,
        List.length_cons]

theorem Split_intercalate (sep : Nat) (s : List Nat) :
    List.intercalate [sep] (Split sep s) = s := by
  induction s with
  | nil => rfl
  | cons r rs ih =>
    by_cases hr : r = sep
    · subst hr
      rw [Split_cons_eq]
      cases hS : Split r rs with
      | nil => exact absurd hS (Split_ne_nil r rs)
      | cons p ps =>
        rw [hS] at ih
        simp only [List.intercalate, List.intersperse, List.flatten] at ih ⊢
        simp [ih]
    · obtain ⟨p0, ps, h1, h2⟩ := Split_cons_ne sep r rs hr
      rw [h2]
      rw [h1] at ih
      cases ps with
      | nil =>
        simp only [List.intercalate, List.intersperse, List.flatten, List.append_nil] at ih ⊢
        rw [ih]
      | cons p1 ps =>
        simp only [List.intercalate, List.intersperse, List.flatten] at ih ⊢
        rw [List.cons_append, ih]

/-! ## Facts about `TrimSpace` -/

theorem TrimSpace_head_not_space (s : List Nat) (r : Nat)
    (h : (TrimSpace s).head? = some r) : IsSpace r = false := by
  unfold TrimSpace at h
  obtain ⟨x, hx⟩ := List.rdropWhile_prefix IsSpace (List.dropWhile IsSpace s)
  have hd := List.head?_dropWhile_not IsSpace s
  cases hT : List.rdropWhile IsSpace (List.dropWhile IsSpace s) with
  | nil => rw [hT] at h; simp at h
  | cons a t =>
    rw [hT] at h hx
    simp only [List.head?_cons, Option.some.injEq] at h
    subst h
    rw [← hx] at hd
    simpa using hd

theorem TrimSpace_getLast_not_space (s : List Nat) (r : Nat)
    (h : (TrimSpace s).getLast? = some r) : IsSpace r = false := by
  unfold TrimSpace at h
  have hne : List.rdropWhile IsSpace (List.dropWhile IsSpace s) ≠ [] := by
    intro e
    rw [e] at h
    simp at h
  have hl := List.rdropWhile_last_not IsSpace (List.dropWhile IsSpace s) hne
  rw [List.getLast?_eq_getLast _ hne] at h
  simp only [Option.some.injEq] at h
  rw [h] at hl
  simpa using hl

theorem mem_of_mem_TrimSpace (s : List Nat) (r : Nat) (h : r ∈ TrimSpace s) : r ∈ s := by
  unfold TrimSpace at h
  exact (List.dropWhile_suffix IsSpace).subset
    ((List.rdropWhile_prefix IsSpace (List.dropWhile IsSpace s)).subset h)

/-! ## Facts about `ParseInt` in base 6 on 12 bits -/

theorem foldl_base6_ge (ds : List Nat) (n : Nat) :
    n ≤ ds.foldl (fun n d => 6 * n + (d - 48)) n := by
  induction ds generalizing n with
  | nil => exact Nat.le_refl _
  | cons d rest ih =>
    rw [List.foldl_cons]
    exact Nat.le_trans (by omega) (ih _)

theorem ParseUintLoop_step (c n : Nat) (rest : List Nat) (hn : n ≤ 4095) :
    ParseUintLoop 6 ((2 ^ 64 - 1) / 6 + 1) 4095 (c :: rest) n =
      if 48 ≤ c ∧ c ≤ 53 then
        if 6 * n + (c - 48) ≤ 4095 then
          ParseUintLoop 6 ((2 ^ 64 - 1) / 6 + 1) 4095 rest (6 * n + (c - 48))
        else (4095, some .ErrRange)
      else (0, some .ErrSyntax) := by
  have hcut : (2 ^ 64 - 1) / 6 + 1 = 3074457345618258603 := by norm_num
  rw [hcut]
  rw [ParseUintLoop]
  by_cases h1 : 48 ≤ c ∧ c ≤ 57
  · have hd : (c - 48 ≥ 6) ↔ ¬ (48 ≤ c ∧ c ≤ 53) := by omega
    have hm1 : (n * 6) % 2 ^ 64 = 6 * n := by omega
    have hm2 : (6 * n + (c - 48)) % 2 ^ 64 = 6 * n + (c - 48) := by omega
    simp only [h1, and_self, if_true]
    by_cases h2 : 48 ≤ c ∧ c ≤ 53
    · have h3 : ¬ (c - 48 ≥ 6) := by omega
      have h4 : ¬ (n ≥ 3074457345618258603) := by omega
      simp only [h3, h4, if_false, hm1, hm2, h2, and_self, if_true]
      by_cases h5 : 6 * n + (c - 48) ≤ 4095
      · have h6 : ¬ (6 * n + (c - 48) < 6 * n ∨ 6 * n + (c - 48) > 4095) := by omega
        simp only [h6, if_false, h5, if_true]
      · have h6 : (6 * n + (c - 48) < 6 * n ∨ 6 * n + (c - 48) > 4095) := by omega
        simp only [h6, if_true, h5, if_false]
    · have h3 : (c - 48 ≥ 6) := by omega
      have h7 : ¬ (c ≤ 53) := by omega
      simp only [h3, if_true, h7, and_false, if_false]
  · have h2 : ¬ (48 ≤ c ∧ c ≤ 53) := by omega
    simp only [h1, h2, if_false]
    generalize c ||| 32 = y
    by_cases h3 : c ≤ 127 ∧ 97 ≤ y ∧ y ≤ 122
    · have h4 : y - 97 + 10 ≥ 6 := by omega
      simp only [h3, and_self, if_true, h4]
    · simp only [h3, if_false]

theorem ParseUintLoop_none_iff (ds : List Nat) (n x : Nat) (hn : n ≤ 4095) :
    ParseUintLoop 6 ((2 ^ 64 - 1) / 6 + 1) 4095 ds n = (x, none) ↔
      (∀ d ∈ ds, isBase6Digit d = true) ∧ x = ds.foldl (fun n d => 6 * n + (d - 48)) n ∧
        x ≤ 4095 := by
  induction ds generalizing n with
  | nil =>
    rw [ParseUintLoop]
    simp only [Prod.mk.injEq, and_true, List.not_mem_nil, false_implies, implies_true,
      true_and, List.foldl_nil]
    constructor
    · intro h
      exact ⟨h.symm, h ▸ hn⟩
    · intro h
      exact h.1.symm
  | cons c rest ih =>
    rw [ParseUintLoop_step c n rest hn, List.foldl_cons]
    by_cases h1 : 48 ≤ c ∧ c ≤ 53
    · have hc : isBase6Digit c = true := by simp [isBase6Digit, h1]
      by_cases h2 : 6 * n + (c - 48) ≤ 4095
      · rw [if_pos h1, if_pos h2, ih _ h2]
        simp only [List.mem_cons, forall_eq_or_imp, hc, true_and]
      · rw [if_pos h1, if_neg h2]
        have hge := foldl_base6_ge rest (6 * n + (c - 48))
        constructor
        · intro h
          simp at h
        · rintro ⟨-, hx, hx2⟩
          omega
    · rw [if_neg h1]
      have hc : ¬ isBase6Digit c = true := by simpa [isBase6Digit] using h1
      constructor
      · intro h
        simp at h
      · rintro ⟨hd, -, -⟩
        exact absurd (hd c (List.mem_cons_self _ _)) hc

theorem ParseUintLoop_range (ds : List Nat) (n x : Nat) (hn : n ≤ 4095)
    (h : ParseUintLoop 6 ((2 ^ 64 - 1) / 6 + 1) 4095 ds n = (x, some .ErrRange)) :
    x = 4095 := by
  induction ds generalizing n with
  | nil =>
    rw [ParseUintLoop] at h
    simp at h
  | cons c rest ih =>
    rw [ParseUintLoop_step c n rest hn] at h
    by_cases h1 : 48 ≤ c ∧ c ≤ 53
    · by_cases h2 : 6 * n + (c - 48) ≤ 4095
      · rw [if_pos h1, if_pos h2] at h
        exact ih _ h2 h
      · rw [if_pos h1, if_neg h2] at h
        simp only [Prod.mk.injEq, and_true] at h
        exact h.symm
    · rw [if_neg h1] at h
      simp at h

theorem ParseUint_none_iff (s : List Nat) (x : Nat) :
    ParseUint s 6 12 = (x, none) ↔
      s ≠ [] ∧ (∀ d ∈ s, isBase6Digit d = true) ∧ x = base6Value s ∧ x ≤ 4095 := by
  unfold ParseUint base6Value
  by_cases hs : s = []
  · simp [hs]
  · have hmax : 2 ^ 12 - 1 = 4095 := by norm_num
    simp only [hs, if_false, hmax, ne_eq, not_false_eq_true, true_and]
    exact ParseUintLoop_none_iff s 0 x (by omega)

theorem ParseUint_range (s : List Nat) (x : Nat)
    (h : ParseUint s 6 12 = (x, some .ErrRange)) : x = 4095 := by
  unfold ParseUint at h
  by_cases hs : s = []
  · simp [hs] at h
  · have hmax : 2 ^ 12 - 1 = 4095 := by norm_num
    simp only [hs, if_false, hmax] at h
    exact ParseUintLoop_range s 0 x (by omega) h

theorem ParseInt_cons_none_iff (c : Nat) (rest : List Nat) (v : Int) :
    ParseInt (c :: rest) 6 12 = (v, none) ↔
      ∃ un, ParseUint (if c = 43 then rest else if c = 45 then rest else c :: rest) 6 12 =
          (un, none) ∧
        if c = 45 then un ≤ 2048 ∧ v = -(un : Int) else un < 2048 ∧ v = (un : Int) := by
  unfold ParseInt
  dsimp only
  generalize (if c = 43 then rest else if c = 45 then rest else c :: rest) = s1
  rcases hP : ParseUint s1 6 12 with ⟨un, e⟩
  have hcut : ((2 : Nat) ^ (12 - 1)) = 2048 := by norm_num
  cases e with
  | none =>
    simp only [hcut, Prod.mk.injEq, and_true, exists_eq_left']
    by_cases hc : c = 45
    · subst hc
      by_cases h : un > 2048
      · simp [h]
      · simp [h]
        constructor
        · intro h1
          exact ⟨by omega, h1.symm⟩
        · intro h1
          exact h1.2.symm
    · have hb : (c == 45) = false := by simpa using hc
      by_cases h : un ≥ 2048
      · simp [hb, hc, h]
      · simp [hb, hc, h]
        constructor
        · intro h1
          exact ⟨by omega, h1.symm⟩
        · intro h1
          exact h1.2.symm
  | some e =>
    cases e with
    | ErrSyntax => simp
    | ErrRange =>
      have hun := ParseUint_range s1 un hP
      subst hun
      by_cases hc : c = 45
      · subst hc
        simp [hcut]
      · have hb : (c == 45) = false := by simpa using hc
        simp [hcut, hb]

theorem ParseInt_none_iff (s : List Nat) (v : Int) :
    ParseInt s 6 12 = (v, none) ↔ IsBase6Literal s v := by
  cases s with
  | nil =>
    constructor
    · intro h
      simp [ParseInt] at h
    · rintro ⟨sign, digits, hs, -, hd, -⟩
      have := List.append_eq_nil.mp hs.symm
      exact absurd this.2 hd
  | cons c rest =>
    rw [ParseInt_cons_none_iff]
    constructor
    · rintro ⟨un, hP, hv⟩
      rw [ParseUint_none_iff] at hP
      obtain ⟨hne, hdig, hx, hle⟩ := hP
      by_cases h43 : c = 43
      · subst h43
        simp only [if_true] at hne hdig hx
        simp only [show ¬ (43 = 45) by decide, if_false] at hv
        refine ⟨[43], rest, rfl, Or.inr (Or.inl rfl), hne, hdig, ?_, ?_, ?_⟩
        · simp [hv.2, hx]
        · omega
        · omega
      · by_cases h45 : c = 45
        · subst h45
          simp only [show ¬ (45 = 43) by decide, if_false, if_true] at hne hdig hx hv
          refine ⟨[45], rest, rfl, Or.inr (Or.inr rfl), hne, hdig, ?_, ?_, ?_⟩
          · simp [hv.2, hx]
          · omega
          · omega
        · simp only [h43, h45, if_false] at hne hdig hx hv
          refine ⟨[], c :: rest, rfl, Or.inl rfl, hne, hdig, ?_, ?_, ?_⟩
          · simp [hv.2, hx]
          · omega
          · omega
    · rintro ⟨sign, digits, hs, hsign, hne, hdig, hv, hlo, hhi⟩
      rcases hsign with rfl | rfl | rfl
      · simp only [List.nil_append] at hs
        subst hs
        have hc := hdig c (List.mem_cons_self _ _)
        simp only [isBase6Digit, Bool.and_eq_true, decide_eq_true_eq] at hc
        have h43 : c ≠ 43 := by omega
        have h45 : c ≠ 45 := by omega
        simp only [show ¬ (([] : List Nat) = [45]) by simp, if_false] at hv
        refine ⟨base6Value (c :: rest), ?_, ?_⟩
        · simp only [h43, h45, if_false]
          rw [ParseUint_none_iff]
          exact ⟨hne, hdig, rfl, by omega⟩
        · simp only [h45, if_false]
          exact ⟨by omega, hv⟩
      · simp only [List.singleton_append, List.cons.injEq] at hs
        obtain ⟨rfl, rfl⟩ := hs
        simp only [show ¬ (([43] : List Nat) = [45]) by simp, if_false] at hv
        refine ⟨base6Value rest, ?_, ?_⟩
        · simp only [if_true]
          rw [ParseUint_none_iff]
          exact ⟨hne, hdig, rfl, by omega⟩
        · simp only [show ¬ (43 = 45) by decide, if_false]
          exact ⟨by omega, hv⟩
      · simp only [List.singleton_append, List.cons.injEq] at hs
        obtain ⟨rfl, rfl⟩ := hs
        simp only [if_true] at hv
        refine ⟨base6Value rest, ?_, ?_⟩
        · simp only [show ¬ (45 = 43) by decide, if_false, if_true]
          rw [ParseUint_none_iff]
          exact ⟨hne, hdig, rfl, by omega⟩
        · simp only [if_true]
          exact ⟨by omega, hv⟩

/-! ## The claims -/

/-- C1: a key whose lowercase form is not the lowercased key token of any
non-blank, non-comment line of the input is absent from the table `Parse`
returns: `Bool` gives `(false, nil)`, while `String`, `Array` and `Integer`
each give an `ENONE` error. -/
theorem absent_key_not_found (lc : Nat → Nat) (buf name : List Nat)
    (h : ∀ raw ∈ linesOf buf, isEntryLine raw = true →
      ToLower lc (keyToken raw) ≠ ToLower lc name) :
    ∃ c, Parse lc buf = some c ∧
      c.Bool lc name = (false, none) ∧
      c.String lc name = ([], some ⟨.ENONE, ToLower lc name, .String⟩) ∧
      c.Array lc name = ([], some ⟨.ENONE, ToLower lc name, .Array⟩) ∧
      c.Integer lc name = some (0, some ⟨.ENONE, ToLower lc name, .String⟩) := by
  refine ⟨tableOf lc buf, Parse_eq lc buf, ?_⟩
  have hm : (tableOf lc buf).m (ToLower lc name) = none := by
    rw [tableOf_lookup, (lastLineFor_none lc _ _).mpr h]
    rfl
  simp [Config.Bool, Config.String, Config.Array, Config.Integer, hm]

theorem absent_key_not_found_witness :
    (∀ raw ∈ linesOf (str "foo bar\n# baz\nQux"), isEntryLine raw = true →
      ToLower id (keyToken raw) ≠ ToLower id (str "Baz")) ∧
    ∃ c, Parse id (str "foo bar\n# baz\nQux") = some c ∧
      c.Bool id (str "Baz") = (false, none) ∧
      c.String id (str "Baz") = ([], some ⟨.ENONE, ToLower id (str "Baz"), .String⟩) ∧
      c.Array id (str "Baz") = ([], some ⟨.ENONE, ToLower id (str "Baz"), .Array⟩) ∧
      c.Integer id (str "Baz") = some (0, some ⟨.ENONE, ToLower id (str "Baz"), .String⟩) :=
  ⟨by decide, absent_key_not_found id _ _ (by decide)⟩

theorem lookup_of_lastLineFor (lc : Nat → Nat) (buf name raw : List Nat)
    (h : lastLineFor lc (ToLower lc name) (linesOf buf) = some raw) :
    (tableOf lc buf).m (ToLower lc name) = some (entryOf raw) := by
  rw [tableOf_lookup, h]
  rfl

/-- C2: when the last non-blank, non-comment line of a key has a value part
`v` containing a comma, `Array` returns without error the comma-separated
pieces of `v` (the pieces rejoin to `v` with commas and hold no comma), each
trimmed, in order: `count ',' + 1` elements, none containing a comma or
starting or ending with whitespace, empty pieces kept as empty strings; and
`"foo bar,baz, qux"` gives `["bar", "baz", "qux"]`. -/
theorem array_of_comma_value (lc : Nat → Nat) (buf name raw v : List Nat)
    (hlast : lastLineFor lc (ToLower lc name) (linesOf buf) = some raw)
    (hv : valuePart raw = some v) (hc : 44 ∈ v) :
    ∃ c, Parse lc buf = some c ∧
      c.Array lc name = ((Split 44 v).map TrimSpace, none) ∧
      List.intercalate [44] (Split 44 v) = v ∧
      (∀ p ∈ Split 44 v, 44 ∉ p) ∧
      ((Split 44 v).map TrimSpace).length = v.count 44 + 1 ∧
      (∀ e ∈ (Split 44 v).map TrimSpace, 44 ∉ e ∧
        (∀ r, e.head? = some r → IsSpace r = false) ∧
        (∀ r, e.getLast? = some r → IsSpace r = false)) ∧
      (∀ i : Nat, (Split 44 v)[i]? = some [] → ((Split 44 v).map TrimSpace)[i]? = some []) ∧
      (Parse lc (str "foo bar,baz, qux")).map (fun c => c.Array lc (str "foo")) =
        some ([str "bar", str "baz", str "qux"], none) ∧
      (Parse lc (str "k ,a,, b ,")).map (fun c => c.Array lc (str "k")) =
        some ([[], str "a", [], str "b", []], none) := by
  refine ⟨tableOf lc buf, Parse_eq lc buf, ?_, Split_intercalate 44 v,
    not_mem_of_mem_Split 44 v, ?_, ?_, ?_, rfl, rfl⟩
  · have he : entryOf raw = ⟨.Array, .strings ((Split 44 v).map TrimSpace)⟩ := by
      simp [entryOf, hv, Contains, hc]
    simp [Config.Array, lookup_of_lastLineFor lc buf name raw hlast, he]
  · rw [List.length_map, Split_length]
  · intro e he
    obtain ⟨p, hp, rfl⟩ := List.mem_map.mp he
    exact ⟨fun hm => not_mem_of_mem_Split 44 v p hp (mem_of_mem_TrimSpace p 44 hm),
      TrimSpace_head_not_space p, TrimSpace_getLast_not_space p⟩
  · intro i hi
    rw [List.getElem?_map, hi]
    rfl

theorem array_of_comma_value_witness :
    lastLineFor id (ToLower id (str "Foo")) (linesOf (str "foo x\nfoo bar,baz, qux\nq")) =
        some (str "foo bar,baz, qux") ∧
      valuePart (str "foo bar,baz, qux") = some (str "bar,baz, qux") ∧
      44 ∈ str "bar,baz, qux" ∧
      ∃ c, Parse id (str "foo x\nfoo bar,baz, qux\nq") = some c ∧
        c.Array id (str "Foo") = ((Split 44 (str "bar,baz, qux")).map TrimSpace, none) :=
  ⟨by decide, by decide, by decide,
    (array_of_comma_value id (str "foo x\nfoo bar,baz, qux\nq") (str "Foo")
      (str "foo bar,baz, qux") (str "bar,baz, qux") (by decide) (by decide) (by decide)).imp
      (fun _ h => ⟨h.1, h.2.1⟩)⟩

theorem TrimSpace_eq_self (s : List Nat)
    (hh : ∀ r, s.head? = some r → IsSpace r = false)
    (hl : ∀ r, s.getLast? = some r → IsSpace r = false) : TrimSpace s = s := by
  unfold TrimSpace
  have h1 : List.dropWhile IsSpace s = s := by
    cases s with
    | nil => rfl
    | cons a t =>
      have := hh a rfl
      simp [List.dropWhile_cons, this]
  rw [h1, List.rdropWhile_eq_self_iff]
  intro hne
  have := hl _ (List.getLast?_eq_getLast s hne)
  simp [this]

theorem TrimSpace_spaces_append (sp w : List Nat) (hsp : ∀ r ∈ sp, IsSpace r = true)
    (hh : ∀ r, w.head? = some r → IsSpace r = false)
    (hl : ∀ r, w.getLast? = some r → IsSpace r = false) : TrimSpace (sp ++ w) = w := by
  have h := TrimSpace_eq_self w hh hl
  unfold TrimSpace at h ⊢
  rw [List.dropWhile_append_of_pos hsp]
  exact h

/-- A line made of a key, a run of spaces and tabs, and a value: what the
parser reads from it. -/
theorem key_sep_value_line (key sep w : List Nat)
    (hk : key ≠ []) (hks : ∀ r ∈ key, IsSpace r = false)
    (hk0 : key.head? ≠ some 35 ∧ key.head? ≠ some 59)
    (hs : sep ≠ []) (hss : ∀ r ∈ sep, r = 32 ∨ r = 9)
    (hw : w ≠ []) (hw9 : 9 ∉ w)
    (hwl : ∀ r, w.getLast? = some r → IsSpace r = false) :
    isEntryLine (key ++ sep ++ w) = true ∧ keyToken (key ++ sep ++ w) = key ∧
      ∃ sp, valuePart (key ++ sep ++ w) = some (sp ++ w) ∧ ∀ r ∈ sp, r = 32 := by
  have hT : TrimSpace (key ++ sep ++ w) = key ++ sep ++ w := by
    apply TrimSpace_eq_self
    · intro r hr
      rw [List.append_assoc, List.head?_append_of_ne_nil _ hk] at hr
      cases key with
      | nil => exact absurd rfl hk
      | cons a t =>
        simp only [List.head?_cons, Option.some.injEq] at hr
        exact hks r (hr ▸ List.mem_cons_self _ _)
    · intro r hr
      rw [List.getLast?_append_of_ne_nil _ hw] at hr
      exact hwl r hr
  have hR : Replace (key ++ sep ++ w) 9 32 = key ++ Replace sep 9 32 ++ w := by
    have e1 : Replace key 9 32 = key := by
      unfold Replace
      conv_rhs => rw [← List.map_id key]
      apply List.map_congr_left
      intro r hr
      have : r ≠ 9 := by
        intro e
        have := hks r hr
        rw [e] at this
        exact absurd this (by decide)
      simp [this]
    have e2 : Replace w 9 32 = w := by
      unfold Replace
      conv_rhs => rw [← List.map_id w]
      apply List.map_congr_left
      intro r hr
      have : r ≠ 9 := fun e => hw9 (e ▸ hr)
      simp [this]
    conv_rhs => rw [← e1, ← e2]
    simp [Replace]
  obtain ⟨sp, hsp, hsp32⟩ : ∃ sp, Replace sep 9 32 = 32 :: sp ∧ ∀ r ∈ sp, r = 32 := by
    cases sep with
    | nil => exact absurd rfl hs
    | cons a t =>
      refine ⟨Replace t 9 32, ?_, ?_⟩
      · rcases hss a (List.mem_cons_self _ _) with rfl | rfl <;> simp [Replace]
      · intro r hr
        simp only [Replace, List.mem_map] at hr
        obtain ⟨x, hx, rfl⟩ := hr
        rcases hss x (List.mem_cons_of_mem _ hx) with rfl | rfl <;> simp
  have hk32 : ∀ r ∈ key, (r != 32) = true := by
    intro r hr
    have := hks r hr
    have h32 : r ≠ 32 := by
      intro e
      rw [e] at this
      exact absurd this (by decide)
    simpa using h32
  refine ⟨?_, ?_, sp, ?_, hsp32⟩
  · unfold isEntryLine
    rw [hT]
    cases key with
    | nil => exact absurd rfl hk
    | cons a t =>
      have h35 : a ≠ 35 := fun e => hk0.1 (by rw [e]; rfl)
      have h59 : a ≠ 59 := fun e => hk0.2 (by rw [e]; rfl)
      simp [h35, h59]
  · unfold keyToken normLine
    rw [hT, hR, hsp, List.append_assoc, List.takeWhile_append_of_pos hk32]
    simp
  · unfold valuePart normLine
    rw [hT, hR, hsp, List.append_assoc, List.dropWhile_append_of_pos hk32]
    simp

theorem lastLineFor_single (lc : Nat → Nat) (raw : List Nat) (h10 : 10 ∉ raw)
    (he : isEntryLine raw = true) :
    lastLineFor lc (ToLower lc (keyToken raw)) (linesOf raw) = some raw := by
  unfold linesOf
  rw [Split_of_not_mem 10 raw h10]
  simp [lastLineFor, he]

/-- C3: when the last non-blank, non-comment line of a key has a value part
`v` with no comma, `String` returns `v` trimmed, without error; and a line
made of a key, any non-empty run of spaces and tabs, and a trimmed comma-free
value stores exactly that value. -/
theorem string_of_plain_value (lc : Nat → Nat) (buf name raw v : List Nat)
    (hlast : lastLineFor lc (ToLower lc name) (linesOf buf) = some raw)
    (hv : valuePart raw = some v) (hc : 44 ∉ v) :
    (∃ c, Parse lc buf = some c ∧ c.String lc name = (TrimSpace v, none)) ∧
    (∀ key sep w : List Nat,
      key ≠ [] → (∀ r ∈ key, IsSpace r = false) →
      key.head? ≠ some 35 ∧ key.head? ≠ some 59 →
      sep ≠ [] → (∀ r ∈ sep, r = 32 ∨ r = 9) →
      w ≠ [] → 9 ∉ w → 10 ∉ w → 44 ∉ w →
      (∀ r, w.head? = some r → IsSpace r = false) →
      (∀ r, w.getLast? = some r → IsSpace r = false) →
      ∃ c, Parse lc (key ++ sep ++ w) = some c ∧ c.String lc key = (w, none)) := by
  constructor
  · refine ⟨tableOf lc buf, Parse_eq lc buf, ?_⟩
    have he : entryOf raw = ⟨.String, .string (TrimSpace v)⟩ := by
      simp [entryOf, hv, Contains, hc]
    simp [Config.String, lookup_of_lastLineFor lc buf name raw hlast, he]
  · intro key sep w hk hks hk0 hs hss hw hw9 hw10 hw44 hwh hwl
    obtain ⟨hE, hK, sp, hV, hsp⟩ := key_sep_value_line key sep w hk hks hk0 hs hss hw hw9 hwl
    have h10 : 10 ∉ key ++ sep ++ w := by
      simp only [List.mem_append, not_or]
      refine ⟨⟨fun h => ?_, fun h => ?_⟩, hw10⟩
      · exact absurd (hks 10 h) (by decide)
      · rcases hss 10 h with e | e <;> exact absurd e (by decide)
    have hL := lastLineFor_single lc (key ++ sep ++ w) h10 hE
    rw [hK] at hL
    refine ⟨tableOf lc (key ++ sep ++ w), Parse_eq lc _, ?_⟩
    have h44 : 44 ∉ sp ++ w := by
      simp only [List.mem_append, not_or]
      exact ⟨fun h => absurd (hsp 44 h) (by decide), hw44⟩
    have hsp2 : ∀ r ∈ sp, IsSpace r = true := by
      intro r hr
      rw [hsp r hr]
      rfl
    have he : entryOf (key ++ sep ++ w) = ⟨.String, .string w⟩ := by
      unfold entryOf
      rw [hV]
      have hC : Contains (sp ++ w) 44 = false := by
        simpa [Contains] using h44
      simp only [hC, TrimSpace_spaces_append sp w hsp2 hwh hwl]
      rfl
    have hm := lookup_of_lastLineFor lc _ key _ hL
    rw [he] at hm
    simp only [Config.String, hm]
    rfl

theorem string_of_plain_value_witness :
    lastLineFor id (ToLower id (str "Name")) (linesOf (str "name a,b\nNAME \t  hello world \n")) =
        some (str "NAME \t  hello world ") ∧
      valuePart (str "NAME \t  hello world ") = some (str "   hello world") ∧
      44 ∉ str "   hello world" ∧
      ∃ c, Parse id (str "name a,b\nNAME \t  hello world \n") = some c ∧
        c.String id (str "Name") = (str "hello world", none) :=
  ⟨by decide, by decide, by decide,
    (string_of_plain_value id (str "name a,b\nNAME \t  hello world \n") (str "Name")
      (str "NAME \t  hello world ") (str "   hello world")
      (by decide) (by decide) (by decide)).1⟩

theorem lookup_isSome_of_entry (lc : Nat → Nat) (buf raw : List Nat)
    (hmem : raw ∈ linesOf buf) (he : isEntryLine raw = true) :
    ((tableOf lc buf).m (ToLower lc (keyToken raw))).isSome = true := by
  rw [tableOf_lookup]
  cases hL : lastLineFor lc (ToLower lc (keyToken raw)) (linesOf buf) with
  | some r => rfl
  | none => exact absurd rfl ((lastLineFor_none lc _ _).mp hL raw hmem he)

/-- C4: key matching is case-insensitive on write and on read. Two names
with the same lowercase form get the same result (value and error) from each
of `Bool`, `Array`, `String` and `Integer`; the key token of any non-blank,
non-comment line is found (present in the table, no `ENONE` error) under every
name with the same lowercase form; and after parsing `"Foo bar"`,
`String("FOO")` is `"bar"`. -/
theorem key_case_insensitive (lc : Nat → Nat) (buf : List Nat) :
    ∃ c, Parse lc buf = some c ∧
      (∀ k1 k2 : List Nat, ToLower lc k1 = ToLower lc k2 →
        c.Bool lc k1 = c.Bool lc k2 ∧ c.Array lc k1 = c.Array lc k2 ∧
        c.String lc k1 = c.String lc k2 ∧ c.Integer lc k1 = c.Integer lc k2) ∧
      (∀ raw ∈ linesOf buf, isEntryLine raw = true →
        ∀ k : List Nat, ToLower lc k = ToLower lc (keyToken raw) →
          (c.m (ToLower lc k)).isSome = true ∧
          (∀ e, (c.Array lc k).2 = some e → e.err ≠ .ENONE) ∧
          (∀ e, (c.String lc k).2 = some e → e.err ≠ .ENONE) ∧
          (∀ v e, c.Integer lc k = some (v, some e) → e.err ≠ .ENONE)) ∧
      (Parse lc (str "Foo bar")).map (fun c => c.String lc (str "FOO")) =
        some (str "bar", none) := by
  refine ⟨tableOf lc buf, Parse_eq lc buf, ?_, ?_, rfl⟩
  · intro k1 k2 h
    simp only [Config.Bool, Config.Array, Config.String, Config.Integer, h, and_self]
  · intro raw hmem he k hk
    have hs := lookup_isSome_of_entry lc buf raw hmem he
    rw [← hk] at hs
    obtain ⟨en, hen⟩ := Option.isSome_iff_exists.mp hs
    refine ⟨hs, ?_, ?_, ?_⟩
    · intro e
      simp only [Config.Array, hen]
      split
      · intro h
        injection h with h
        subst h
        simp
      · split
        · intro h
          simp at h
        · intro h
          injection h with h
          subst h
          simp
    · intro e
      simp only [Config.String, hen]
      split
      · intro h
        injection h with h
        subst h
        simp
      · split
        · intro h
          simp at h
        · intro h
          injection h with h
          subst h
          simp
    · intro v e
      simp only [Config.Integer, hen]
      split
      · split
        · intro h
          simp only [Option.some.injEq, Prod.mk.injEq] at h
          obtain ⟨-, h⟩ := h
          subst h
          simp
        · intro h
          simp at h
      · intro h
        simp at h

theorem lastLineFor_of_no_later (lc : Nat → Nat) (pre post : List (List Nat)) (raw : List Nat)
    (he : isEntryLine raw = true)
    (hpost : ∀ r ∈ post, isEntryLine r = true →
      ToLower lc (keyToken r) ≠ ToLower lc (keyToken raw)) :
    lastLineFor lc (ToLower lc (keyToken raw)) (pre ++ raw :: post) = some raw := by
  have hn := (lastLineFor_none lc (ToLower lc (keyToken raw)) post).mpr hpost
  unfold lastLineFor at hn ⊢
  rw [List.reverse_append, List.reverse_cons, List.append_assoc, List.find?_append, hn]
  simp [he]

/-- C5, as stated, fails: in `"foo\nfoo bar"` the first line is a key with no
value part, yet `Bool("foo")` is `(false, EBADTYPE)`, the second line having
overwritten the flag with a string. -/
theorem flag_line_overwritten :
    str "foo" ∈ linesOf (str "foo\nfoo bar") ∧ isEntryLine (str "foo") = true ∧
      valuePart (str "foo") = none ∧
      (Parse id (str "foo\nfoo bar")).map (fun c => c.Bool id (keyToken (str "foo"))) =
        some (false, some ⟨.EBADTYPE, str "foo", .Bool⟩) := by
  decide

/-- C5, amended: for every line of the input that is non-empty after
trimming, is not a comment, consists of a key token with no value part, and
is followed by no non-blank, non-comment line with the same lowercased key
token, `Bool` of that line's key returns `(true, nil)`. -/
theorem flag_of_last_line (lc : Nat → Nat) (buf raw : List Nat) (pre post : List (List Nat))
    (hlines : linesOf buf = pre ++ raw :: post)
    (he : isEntryLine raw = true) (hv : valuePart raw = none)
    (hpost : ∀ r ∈ post, isEntryLine r = true →
      ToLower lc (keyToken r) ≠ ToLower lc (keyToken raw)) :
    ∃ c, Parse lc buf = some c ∧ c.Bool lc (keyToken raw) = (true, none) := by
  refine ⟨tableOf lc buf, Parse_eq lc buf, ?_⟩
  have hL := lastLineFor_of_no_later lc pre post raw he hpost
  rw [← hlines] at hL
  have hE : entryOf raw = ⟨.Bool, .bool true⟩ := by
    simp [entryOf, hv]
  have hm := lookup_of_lastLineFor lc buf (keyToken raw) raw hL
  rw [hE] at hm
  simp [Config.Bool, hm]

theorem flag_of_last_line_witness :
    linesOf (str "Debug on\n# c\n debug \nother x") =
        [str "Debug on", str "# c"] ++ str " debug " :: [str "other x"] ∧
      isEntryLine (str " debug ") = true ∧ valuePart (str " debug ") = none ∧
      ∃ c, Parse id (str "Debug on\n# c\n debug \nother x") = some c ∧
        c.Bool id (keyToken (str " debug ")) = (true, none) :=
  ⟨by decide, by decide, by decide,
    flag_of_last_line id (str "Debug on\n# c\n debug \nother x") (str " debug ")
      [str "Debug on", str "# c"] [str "other x"] (by decide) (by decide) (by decide)
      (by decide)⟩

theorem entryOf_tag (raw : List Nat) :
    (entryOf raw).Typ = .Bool ∨ (entryOf raw).Typ = .Array ∨ (entryOf raw).Typ = .String := by
  unfold entryOf
  split
  · exact Or.inl rfl
  · split
    · exact Or.inr (Or.inl rfl)
    · exact Or.inr (Or.inr rfl)

/-- C6: on a table produced by `Parse`, a key that is present under a tag
other than the requested one (the stored tags being `Bool`, `Array` and
`String`) makes `Array`, `String` and `Bool` fail with `EBADTYPE`, not
`ENONE`; `Bool` also returns `false`. -/
theorem type_mismatch_error (lc : Nat → Nat) (buf : List Nat) :
    ∃ c, Parse lc buf = some c ∧
      (∀ name e, c.m (ToLower lc name) = some e →
        (e.Typ = .Bool ∨ e.Typ = .Array ∨ e.Typ = .String) ∧
        (e.Typ ≠ .Array →
          c.Array lc name = ([], some ⟨.EBADTYPE, ToLower lc name, .Array⟩)) ∧
        (e.Typ ≠ .String →
          c.String lc name = ([], some ⟨.EBADTYPE, ToLower lc name, .String⟩)) ∧
        (e.Typ ≠ .Bool →
          c.Bool lc name = (false, some ⟨.EBADTYPE, ToLower lc name, .Bool⟩))) ∧
      (Parse lc (str "s text\nf\na x,y")).map
          (fun c => (c.Array lc (str "s"), c.Array lc (str "f"), c.String lc (str "a"),
            c.String lc (str "f"), c.Bool lc (str "s"), c.Bool lc (str "a"))) =
        some (([], some ⟨.EBADTYPE, str "s", .Array⟩), ([], some ⟨.EBADTYPE, str "f", .Array⟩),
          ([], some ⟨.EBADTYPE, str "a", .String⟩), ([], some ⟨.EBADTYPE, str "f", .String⟩),
          (false, some ⟨.EBADTYPE, str "s", .Bool⟩),
          (false, some ⟨.EBADTYPE, str "a", .Bool⟩)) := by
  refine ⟨tableOf lc buf, Parse_eq lc buf, ?_, rfl⟩
  intro name e he
  refine ⟨?_, ?_, ?_, ?_⟩
  · rw [tableOf_lookup] at he
    cases hL : lastLineFor lc (ToLower lc name) (linesOf buf) with
    | none => rw [hL] at he; simp at he
    | some raw =>
      rw [hL] at he
      simp only [Option.map_some', Option.some.injEq] at he
      rw [← he]
      exact entryOf_tag raw
  · intro h
    simp [Config.Array, he, h]
  · intro h
    simp [Config.String, he, h]
  · intro h
    simp [Config.Bool, he, h]

theorem rdropWhile_cons_of_neg (p : Nat → Bool) (a : Nat) (l : List Nat) (h : p a = false) :
    List.rdropWhile p (a :: l) = a :: List.rdropWhile p l := by
  unfold List.rdropWhile
  rw [List.reverse_cons, List.dropWhile_append]
  cases hD : List.dropWhile p l.reverse with
  | nil => simp [h]
  | cons x xs => simp

theorem isEntryLine_marker (ws rest : List Nat) (m : Nat) (hm : m = 35 ∨ m = 59)
    (hws : ∀ r ∈ ws, IsSpace r = true) : isEntryLine (ws ++ m :: rest) = false := by
  have hsp : IsSpace m = false := by
    rcases hm with rfl | rfl <;> rfl
  unfold isEntryLine TrimSpace
  rw [List.dropWhile_append_of_pos hws, List.dropWhile_cons_of_neg (by simp [hsp]),
    rdropWhile_cons_of_neg IsSpace m rest hsp]
  rcases hm with rfl | rfl <;> rfl

theorem isEntryLine_blank (ws : List Nat) (hws : ∀ r ∈ ws, IsSpace r = true) :
    isEntryLine ws = false := by
  unfold isEntryLine TrimSpace
  rw [(List.dropWhile_eq_nil_iff).mpr hws]
  rfl

theorem tableOf_keys (lc : Nat → Nat) (buf q : List Nat) :
    ((tableOf lc buf).m q).isSome = true ↔
      ∃ raw ∈ linesOf buf, isEntryLine raw = true ∧ ToLower lc (keyToken raw) = q := by
  rw [tableOf_lookup]
  constructor
  · intro h
    cases hL : lastLineFor lc q (linesOf buf) with
    | none => rw [hL] at h; simp at h
    | some raw =>
      obtain ⟨h1, h2, h3⟩ := lastLineFor_some lc q raw _ hL
      exact ⟨raw, h1, h2, h3⟩
  · rintro ⟨raw, h1, h2, h3⟩
    cases hL : lastLineFor lc q (linesOf buf) with
    | none => exact absurd h3 ((lastLineFor_none lc q _).mp hL raw h1 h2)
    | some r => rfl

/-- C7: the keys of the table `Parse` returns are exactly the lowercased key
tokens of the lines that, trimmed, are non-empty and do not start with `#` or
`;`; a line of whitespace only, or with `#` or `;` after leading whitespace
only, is not such a line; and `"# comment\n\nkey value\n"` gives the single
key `"key"` with `String` value `"value"`. -/
theorem keys_are_entry_lines (lc : Nat → Nat) (buf : List Nat) :
    ∃ c, Parse lc buf = some c ∧
      (∀ q, (c.m q).isSome = true ↔
        ∃ raw ∈ linesOf buf, isEntryLine raw = true ∧ ToLower lc (keyToken raw) = q) ∧
      (∀ ws rest : List Nat, (∀ r ∈ ws, IsSpace r = true) →
        isEntryLine ws = false ∧ isEntryLine (ws ++ 35 :: rest) = false ∧
        isEntryLine (ws ++ 59 :: rest) = false) ∧
      (∃ c0, Parse lc (str "# comment\n\nkey value\n") = some c0 ∧
        (∀ q, (c0.m q).isSome = true ↔ q = str "key") ∧
        c0.String lc (str "key") = (str "value", none)) := by
  refine ⟨tableOf lc buf, Parse_eq lc buf, tableOf_keys lc buf, ?_, ?_⟩
  · intro ws rest hws
    exact ⟨isEntryLine_blank ws hws, isEntryLine_marker ws rest 35 (Or.inl rfl) hws,
      isEntryLine_marker ws rest 59 (Or.inr rfl) hws⟩
  · refine ⟨tableOf lc (str "# comment\n\nkey value\n"), Parse_eq lc _, ?_, rfl⟩
    intro q
    rw [tableOf_keys]
    have hl : linesOf (str "# comment\n\nkey value\n") =
        [str "# comment", [], str "key value", []] := by decide
    have h1 : isEntryLine (str "# comment") = false := by decide
    have h2 : isEntryLine [] = false := by decide
    have h3 : isEntryLine (str "key value") = true := by decide
    have h4 : ToLower lc (keyToken (str "key value")) = str "key" := rfl
    rw [hl]
    simp only [List.mem_cons, List.mem_singleton, List.not_mem_nil, or_false]
    constructor
    · rintro ⟨raw, hraw, he, hk⟩
      rcases hraw with rfl | rfl | rfl | rfl
      · rw [h1] at he; exact absurd he (by decide)
      · rw [h2] at he; exact absurd he (by decide)
      · rw [← hk, h4]
      · rw [h2] at he; exact absurd he (by decide)
    · intro hq
      exact ⟨str "key value", Or.inr (Or.inr (Or.inl rfl)), h3, by rw [h4, hq]⟩

/-- C8: last occurrence wins. The entry stored for a key is the one of the
last non-blank, non-comment line with that lowercased key token alone: the
table entry and every accessor agree between `Parse` of the whole input and
`Parse` of that single line, whatever earlier lines stored (a string, then an
array, then a flag leaves the flag). -/
theorem last_occurrence_wins (lc : Nat → Nat) (buf name raw : List Nat)
    (hlast : lastLineFor lc (ToLower lc name) (linesOf buf) = some raw) :
    ∃ c c1, Parse lc buf = some c ∧ Parse lc raw = some c1 ∧
      c.m (ToLower lc name) = c1.m (ToLower lc name) ∧
      c.Bool lc name = c1.Bool lc name ∧ c.Array lc name = c1.Array lc name ∧
      c.String lc name = c1.String lc name ∧ c.Integer lc name = c1.Integer lc name ∧
      (Parse lc (str "k 1\nk a,b\nK")).map
          (fun c => (c.Bool lc (str "k"), c.String lc (str "k"), c.Array lc (str "k"))) =
        some ((true, none), ([], some ⟨.EBADTYPE, str "k", .String⟩),
          ([], some ⟨.EBADTYPE, str "k", .Array⟩)) := by
  obtain ⟨hmem, he, hk⟩ := lastLineFor_some lc _ raw _ hlast
  have h10 : 10 ∉ raw := not_mem_of_mem_Split 10 buf raw hmem
  have h1 := lastLineFor_single lc raw h10 he
  rw [hk] at h1
  have hm : (tableOf lc buf).m (ToLower lc name) = (tableOf lc raw).m (ToLower lc name) := by
    rw [lookup_of_lastLineFor lc buf name raw hlast, lookup_of_lastLineFor lc raw name raw h1]
  refine ⟨tableOf lc buf, tableOf lc raw, Parse_eq lc buf, Parse_eq lc raw, hm, ?_, ?_, ?_, ?_,
    rfl⟩ <;>
  simp only [Config.Bool, Config.Array, Config.String, Config.Integer, hm]

theorem last_occurrence_wins_witness :
    lastLineFor id (ToLower id (str "Port")) (linesOf (str "port 80\n# x\nPORT 8080,8081\nz")) =
        some (str "PORT 8080,8081") ∧
      ∃ c c1, Parse id (str "port 80\n# x\nPORT 8080,8081\nz") = some c ∧
        Parse id (str "PORT 8080,8081") = some c1 ∧
        c.m (ToLower id (str "Port")) = c1.m (ToLower id (str "Port")) ∧
        c.Array id (str "Port") = c1.Array id (str "Port") :=
  ⟨by decide,
    (last_occurrence_wins id (str "port 80\n# x\nPORT 8080,8081\nz") (str "Port")
      (str "PORT 8080,8081") (by decide)).imp
      (fun _ h => h.imp (fun _ h => ⟨h.1, h.2.1, h.2.2.1, h.2.2.2.2.1⟩))⟩

theorem Integer_of_string (lc : Nat → Nat) (c : Config) (name s : List Nat)
    (h : c.m (ToLower lc name) = some ⟨.String, .string s⟩) :
    (∀ v : Int, c.Integer lc name = some (v, none) ↔ IsBase6Literal s v) ∧
      ((¬ ∃ v, IsBase6Literal s v) →
        c.Integer lc name = some (0, some ⟨.EBADTYPE, ToLower lc name, .String⟩)) := by
  have hI : c.Integer lc name =
      match ParseInt s 6 12 with
      | (_, some _) => some (0, some ⟨.EBADTYPE, ToLower lc name, .String⟩)
      | (int1, none) => some (int1, none) := by
    simp only [Config.Integer, h]
  rcases hP : ParseInt s 6 12 with ⟨x, e⟩
  rw [hP] at hI
  cases e with
  | none =>
    have hx := (ParseInt_none_iff s x).mp hP
    simp only at hI
    refine ⟨fun v => ?_, fun hno => absurd ⟨x, hx⟩ hno⟩
    rw [hI, ← ParseInt_none_iff, hP]
    simp
  | some e =>
    simp only at hI
    refine ⟨fun v => ?_, fun _ => hI⟩
    rw [hI, ← ParseInt_none_iff, hP]
    simp

/-- C9: for a key stored by `Parse` as a String `s`, `Integer` returns
`(v, nil)` exactly when `s` is an optional sign followed by one or more digits
`0` to `5` whose signed base-6 value `v` lies between -2048 and 2047, and
otherwise returns 0 with an `EBADTYPE` error, in particular when `s` holds a
digit `6` to `9`; after parsing `"n 10"`, `Integer("n")` is 6, and 2047
(`13251`) and -2048 (`-13252`) are the extreme values. -/
theorem integer_base6 (lc : Nat → Nat) (buf : List Nat) :
    ∃ c, Parse lc buf = some c ∧
      (∀ name s, c.m (ToLower lc name) = some ⟨.String, .string s⟩ →
        (∀ v : Int, c.Integer lc name = some (v, none) ↔ IsBase6Literal s v) ∧
        ((¬ ∃ v, IsBase6Literal s v) →
          c.Integer lc name = some (0, some ⟨.EBADTYPE, ToLower lc name, .String⟩)) ∧
        ((∃ d ∈ s, 54 ≤ d ∧ d ≤ 57) →
          c.Integer lc name = some (0, some ⟨.EBADTYPE, ToLower lc name, .String⟩))) ∧
      (Parse lc (str "n 10")).map (fun c => c.Integer lc (str "n")) = some (some (6, none)) ∧
      (Parse lc (str "a 13251\nb 13252\nc -13252\nd -13253\ne 17\nf +\ng +5")).map
          (fun c => (c.Integer lc (str "a"), c.Integer lc (str "b"), c.Integer lc (str "c"),
            c.Integer lc (str "d"), c.Integer lc (str "e"), c.Integer lc (str "f"),
            c.Integer lc (str "g"))) =
        some (some (2047, none), some (0, some ⟨.EBADTYPE, str "b", .String⟩),
          some (-2048, none), some (0, some ⟨.EBADTYPE, str "d", .String⟩),
          some (0, some ⟨.EBADTYPE, str "e", .String⟩),
          some (0, some ⟨.EBADTYPE, str "f", .String⟩), some (5, none)) := by
  refine ⟨tableOf lc buf, Parse_eq lc buf, ?_, rfl, rfl⟩
  intro name s h
  obtain ⟨h1, h2⟩ := Integer_of_string lc _ name s h
  refine ⟨h1, h2, ?_⟩
  rintro ⟨d, hd, hlo, hhi⟩
  apply h2
  rintro ⟨v, sign, digits, hs, hsign, -, hdig, -⟩
  rw [hs] at hd
  rcases List.mem_append.mp hd with hm | hm
  · rcases hsign with rfl | rfl | rfl
    · simp at hm
    · simp only [List.mem_singleton] at hm
      omega
    · simp only [List.mem_singleton] at hm
      omega
  · have := hdig d hm
    simp only [isBase6Digit, Bool.and_eq_true, decide_eq_true_eq] at this
    omega

/-- C10 fails on the code: on a key stored as a flag or as an array,
`Integer` neither returns a value nor an error value; its unchecked type
assertion panics. -/
theorem integer_panics_on_flag_and_array :
    (Parse id (str "debug\nhosts a,b")).map
        (fun c => (c.Integer id (str "debug"), c.Integer id (str "hosts"))) =
      some (none, none) := by
  decide

theorem lookup_some_entryOf (lc : Nat → Nat) (buf q : List Nat) (e : confvar)
    (h : (tableOf lc buf).m q = some e) :
    ∃ raw, lastLineFor lc q (linesOf buf) = some raw ∧ e = entryOf raw := by
  rw [tableOf_lookup] at h
  cases hL : lastLineFor lc q (linesOf buf) with
  | none => rw [hL] at h; simp at h
  | some raw =>
    rw [hL] at h
    simp only [Option.map_some', Option.some.injEq] at h
    exact ⟨raw, rfl, h.symm⟩

theorem entryOf_wellTyped (raw : List Nat) : (entryOf raw).wellTyped = true := by
  unfold entryOf
  split
  · rfl
  · split <;> rfl

/-- C11: `Integer` does not check the type tag. For every key that `Parse`
stored as a Bool flag or as an Array (its last line has no value part, or a
value part with a comma), `Integer` returns neither an integer nor an error
value: the string type assertion on the stored value panics. -/
theorem integer_unchecked_cast (lc : Nat → Nat) (buf : List Nat) :
    ∃ c, Parse lc buf = some c ∧
      (∀ name e, c.m (ToLower lc name) = some e → e.Typ = .Bool ∨ e.Typ = .Array →
        c.Integer lc name = none) ∧
      (∀ name raw, lastLineFor lc (ToLower lc name) (linesOf buf) = some raw →
        (valuePart raw = none ∨ ∃ v, valuePart raw = some v ∧ 44 ∈ v) →
        (c.m (ToLower lc name)).isSome = true ∧ c.Integer lc name = none) ∧
      (Parse lc (str "debug\nhosts a,b\nport 80")).map
          (fun c => (c.Integer lc (str "debug"), c.Integer lc (str "hosts"),
            c.Integer lc (str "port"))) =
        some (none, none, some (0, some ⟨.EBADTYPE, str "port", .String⟩)) := by
  refine ⟨tableOf lc buf, Parse_eq lc buf, ?_, ?_, rfl⟩
  · intro name e he ht
    obtain ⟨raw, -, rfl⟩ := lookup_some_entryOf lc buf _ e he
    have hw := entryOf_wellTyped raw
    simp only [Config.Integer, he]
    generalize entryOf raw = e at ht hw
    rcases e with ⟨t, v⟩
    cases v with
    | bool b => rfl
    | strings l => rfl
    | string s =>
      rcases ht with h | h <;> (simp only at h; subst h; simp [confvar.wellTyped] at hw)
  · intro name raw hL hv
    have hm := lookup_of_lastLineFor lc buf name raw hL
    refine ⟨by rw [hm]; rfl, ?_⟩
    simp only [Config.Integer, hm]
    rcases hv with hv | ⟨v, hv, hc⟩
    · simp [entryOf, hv]
    · simp [entryOf, hv, Contains, hc]

/-- C12: tag/value invariant. Every entry of the table `Parse` returns carries
a payload of the type its tag names, and so `Bool`, `Array` and `String` never
return an `EBADVAL` error on such a table. -/
theorem tag_matches_payload (lc : Nat → Nat) (buf : List Nat) :
    ∃ c, Parse lc buf = some c ∧
      (∀ q e, c.m q = some e → e.wellTyped = true) ∧
      (∀ q e, c.m q = some e →
        (e.Typ = .Bool ∧ ∃ b, e.Val = .bool b) ∨ (e.Typ = .Array ∧ ∃ v, e.Val = .strings v) ∨
        (e.Typ = .String ∧ ∃ s, e.Val = .string s)) ∧
      (∀ name er, ((c.Bool lc name).2 = some er → er.err ≠ .EBADVAL) ∧
        ((c.Array lc name).2 = some er → er.err ≠ .EBADVAL) ∧
        ((c.String lc name).2 = some er → er.err ≠ .EBADVAL)) := by
  have hW : ∀ q e, (tableOf lc buf).m q = some e → e.wellTyped = true := by
    intro q e he
    obtain ⟨raw, -, rfl⟩ := lookup_some_entryOf lc buf q e he
    exact entryOf_wellTyped raw
  refine ⟨tableOf lc buf, Parse_eq lc buf, hW, ?_, ?_⟩
  · intro q e he
    have hw := hW q e he
    rcases e with ⟨t, v⟩
    cases t <;> cases v <;> simp [confvar.wellTyped] at hw ⊢
  · intro name er
    cases hm : (tableOf lc buf).m (ToLower lc name) with
    | none =>
      simp only [Config.Bool, Config.Array, Config.String, hm]
      refine ⟨?_, ?_, ?_⟩ <;> intro h <;> simp at h <;> subst h <;> simp
    | some e =>
      have hw := hW _ e hm
      rcases e with ⟨t, v⟩
      simp only [Config.Bool, Config.Array, Config.String, hm]
      refine ⟨fun h => ?_, fun h => ?_, fun h => ?_⟩ <;>
        cases t <;> cases v <;> simp_all [confvar.wellTyped] <;> (subst h; simp)

/-! ## Tabs and carriage returns -/

theorem Split_map (f : Nat → Nat) (sep : Nat) (hf : ∀ r, f r = sep ↔ r = sep) (s : List Nat) :
    Split sep (s.map f) = (Split sep s).map (List.map f) := by
  induction s with
  | nil => rfl
  | cons r rs ih =>
    by_cases hr : r = sep
    · subst hr
      have : f r = r := (hf r).mpr rfl
      rw [List.map_cons, this, Split_cons_eq, Split_cons_eq, ih]
      rfl
    · have hfr : f r ≠ sep := fun h => hr ((hf r).mp h)
      obtain ⟨p, ps, h1, h2⟩ := Split_cons_ne sep r rs hr
      obtain ⟨p1, ps1, h3, h4⟩ := Split_cons_ne sep (f r) (rs.map f) hfr
      rw [List.map_cons, h4, h2]
      rw [ih, h1] at h3
      simp only [List.map_cons, List.cons.injEq] at h3
      rw [← h3.1, ← h3.2]
      rfl

theorem TrimSpace_map (f : Nat → Nat) (hf : ∀ r, IsSpace (f r) = IsSpace r) (s : List Nat) :
    TrimSpace (s.map f) = (TrimSpace s).map f := by
  have hc : IsSpace ∘ f = IsSpace := funext hf
  unfold TrimSpace List.rdropWhile
  rw [List.dropWhile_map, hc, ← List.map_reverse, List.dropWhile_map, hc, List.map_reverse]

theorem IsSpace_tab_to_space (r : Nat) : IsSpace (if r = 9 then 32 else r) = IsSpace r := by
  split
  · next h => subst h; rfl
  · rfl

theorem TrimSpace_Replace (s : List Nat) :
    TrimSpace (Replace s 9 32) = Replace (TrimSpace s) 9 32 :=
  TrimSpace_map _ IsSpace_tab_to_space s

theorem Replace_idem (s : List Nat) : Replace (Replace s 9 32) 9 32 = Replace s 9 32 := by
  unfold Replace
  rw [List.map_map]
  apply List.map_congr_left
  intro r _
  by_cases h : r = 9 <;> simp [h]

theorem normLine_Replace (raw : List Nat) : normLine (Replace raw 9 32) = normLine raw := by
  unfold normLine
  rw [TrimSpace_Replace, Replace_idem]

theorem isEntryLine_Replace (raw : List Nat) :
    isEntryLine (Replace raw 9 32) = isEntryLine raw := by
  unfold isEntryLine
  rw [TrimSpace_Replace]
  cases TrimSpace raw with
  | nil => rfl
  | cons b t =>
    by_cases h : b = 9
    · subst h; rfl
    · simp [Replace, h]

theorem stepLine_congr (lc : Nat → Nat) (c : Config) (a b : List Nat)
    (h1 : normLine a = normLine b) (h2 : isEntryLine a = isEntryLine b) :
    stepLine lc c a = stepLine lc c b := by
  unfold stepLine entryOf keyToken valuePart
  rw [h1, h2]

theorem tableOf_Replace (lc : Nat → Nat) (buf : List Nat) :
    tableOf lc (Replace buf 9 32) = tableOf lc buf := by
  unfold tableOf linesOf
  have hs : Split 10 (Replace buf 9 32) = (Split 10 buf).map (fun l => Replace l 9 32) := by
    unfold Replace
    apply Split_map
    intro r
    by_cases h : r = 9 <;> simp [h]
  rw [hs, List.foldl_map]
  congr 1
  funext c raw
  exact stepLine_congr lc c _ _ (normLine_Replace raw) (isEntryLine_Replace raw)

theorem subset_of_mem_Split (sep : Nat) (s p : List Nat) (h : p ∈ Split sep s) :
    ∀ r ∈ p, r ∈ s := by
  induction s generalizing p with
  | nil =>
    simp only [Split, List.mem_singleton] at h
    subst h
    simp
  | cons a rs ih =>
    by_cases ha : a = sep
    · subst ha
      rw [Split_cons_eq] at h
      rcases List.mem_cons.mp h with rfl | h
      · simp
      · intro r hr
        exact List.mem_cons_of_mem _ (ih p h r hr)
    · obtain ⟨p0, ps, h1, h2⟩ := Split_cons_ne sep a rs ha
      rw [h2] at h
      rcases List.mem_cons.mp h with rfl | h
      · intro r hr
        rcases List.mem_cons.mp hr with rfl | hr
        · exact List.mem_cons_self _ _
        · exact List.mem_cons_of_mem _ (ih p0 (by rw [h1]; exact List.mem_cons_self _ _) r hr)
      · intro r hr
        exact List.mem_cons_of_mem _ (ih p (by rw [h1]; exact List.mem_cons_of_mem _ h) r hr)

theorem mem_normLine (raw : List Nat) (r : Nat) (h : r ∈ normLine raw) :
    r ≠ 9 ∧ (r ∈ raw ∨ r = 32) := by
  unfold normLine Replace at h
  obtain ⟨x, hx, rfl⟩ := List.mem_map.mp h
  have hx2 := mem_of_mem_TrimSpace raw x hx
  by_cases h9 : x = 9
  · simp [h9]
  · simp only [h9, if_false]
    exact ⟨h9, Or.inl hx2⟩

theorem mem_keyToken (raw : List Nat) (r : Nat) (h : r ∈ keyToken raw) :
    r ∈ normLine raw ∧ r ≠ 32 := by
  unfold keyToken at h
  refine ⟨(List.takeWhile_prefix _).subset h, ?_⟩
  have := List.mem_takeWhile_imp h
  simpa using this

theorem mem_valuePart (raw v : List Nat) (hv : valuePart raw = some v) (r : Nat) (h : r ∈ v) :
    r ∈ normLine raw := by
  unfold valuePart at hv
  have hsuf := List.dropWhile_suffix (fun r => r != 32) (l := normLine raw)
  cases hD : List.dropWhile (fun r => r != 32) (normLine raw) with
  | nil => rw [hD] at hv; simp at hv
  | cons a t =>
    rw [hD] at hv hsuf
    simp only [Option.some.injEq] at hv
    subst hv
    exact hsuf.subset (List.mem_cons_of_mem _ h)

theorem unicodeToLower_below_letters (lc : Nat → Nat) (hlc : CaseTableSound lc) (r x : Nat)
    (hx : x < 65) (h : unicodeToLower lc r = x) : r = x := by
  unfold unicodeToLower at h
  by_cases h1 : r ≤ 0x7F
  · rw [if_pos h1] at h
    by_cases h2 : 65 ≤ r ∧ r ≤ 90
    · rw [if_pos h2] at h
      omega
    · rw [if_neg h2] at h
      exact h
  · rw [if_neg h1] at h
    rcases hlc r (by omega) with h3 | h3 <;> omega

theorem entryOf_string (raw s : List Nat) (t : VarType)
    (h : entryOf raw = ⟨t, .string s⟩) :
    t = .String ∧ ∃ v, valuePart raw = some v ∧ 44 ∉ v ∧ s = TrimSpace v := by
  unfold entryOf at h
  cases hv : valuePart raw with
  | none => rw [hv] at h; simp at h
  | some v =>
    rw [hv] at h
    by_cases hc : Contains v 44 = true
    · simp [hc] at h
    · simp only [hc, Bool.false_eq_true, if_false, confvar.mk.injEq, Dyn.string.injEq] at h
      refine ⟨h.1.symm, v, rfl, ?_, h.2.symm⟩
      simpa [Contains] using hc

theorem entryOf_strings (raw : List Nat) (l : List (List Nat)) (t : VarType)
    (h : entryOf raw = ⟨t, .strings l⟩) :
    t = .Array ∧ ∃ v, valuePart raw = some v ∧ 44 ∈ v ∧ l = (Split 44 v).map TrimSpace := by
  unfold entryOf at h
  cases hv : valuePart raw with
  | none => rw [hv] at h; simp at h
  | some v =>
    rw [hv] at h
    by_cases hc : Contains v 44 = true
    · simp only [hc, if_true, confvar.mk.injEq, Dyn.strings.injEq] at h
      refine ⟨h.1.symm, v, rfl, ?_, h.2.symm⟩
      simpa [Contains] using hc
    · simp [hc] at h

theorem entryOf_bool (raw : List Nat) (b : Bool) (t : VarType)
    (h : entryOf raw = ⟨t, .bool b⟩) : t = .Bool ∧ b = true ∧ valuePart raw = none := by
  unfold entryOf at h
  cases hv : valuePart raw with
  | none =>
    rw [hv] at h
    simp only [confvar.mk.injEq, Dyn.bool.injEq] at h
    exact ⟨h.1.symm, h.2.symm, rfl⟩
  | some v =>
    rw [hv] at h
    by_cases hc : Contains v 44 = true <;> simp [hc] at h

/-- C13: tabs are normalized to spaces before tokenizing. `Parse` yields the
same table for the input and for the input with every tab replaced by a
space; no stored string or array element contains a tab, nor does a stored
key (given that the case table above ASCII never yields a tab); and
`"key<TAB>value"` stores the key `"key"` with String value `"value"`. -/
theorem tabs_normalized (lc : Nat → Nat) (buf : List Nat) :
    Parse lc (Replace buf 9 32) = Parse lc buf ∧
      (∃ c, Parse lc buf = some c ∧
        (∀ q s t, c.m q = some ⟨t, .string s⟩ → 9 ∉ s) ∧
        (∀ q l t, c.m q = some ⟨t, .strings l⟩ → ∀ e ∈ l, 9 ∉ e) ∧
        (CaseTableSound lc → ∀ q, (c.m q).isSome = true → 9 ∉ q)) ∧
      (∃ c, Parse lc (str "key\tvalue") = some c ∧
        (∀ q, (c.m q).isSome = true ↔ q = str "key") ∧
        c.String lc (str "key") = (str "value", none)) := by
  refine ⟨?_, ⟨tableOf lc buf, Parse_eq lc buf, ?_, ?_, ?_⟩, ?_⟩
  · rw [Parse_eq, Parse_eq, tableOf_Replace]
  · intro q s t he hm
    obtain ⟨raw, -, he2⟩ := lookup_some_entryOf lc buf q _ he
    obtain ⟨-, v, hv, -, rfl⟩ := entryOf_string raw s t he2.symm
    exact (mem_normLine raw 9 (mem_valuePart raw v hv 9 (mem_of_mem_TrimSpace v 9 hm))).1 rfl
  · intro q l t he e hel hm
    obtain ⟨raw, -, he2⟩ := lookup_some_entryOf lc buf q _ he
    obtain ⟨-, v, hv, -, rfl⟩ := entryOf_strings raw l t he2.symm
    obtain ⟨p, hp, rfl⟩ := List.mem_map.mp hel
    exact (mem_normLine raw 9 (mem_valuePart raw v hv 9
      (subset_of_mem_Split 44 v p hp 9 (mem_of_mem_TrimSpace p 9 hm)))).1 rfl
  · intro hlc q hq hm
    obtain ⟨raw, -, -, rfl⟩ := (tableOf_keys lc buf q).mp hq
    unfold ToLower at hm
    obtain ⟨r, hr, hr9⟩ := List.mem_map.mp hm
    have := unicodeToLower_below_letters lc hlc r 9 (by decide) hr9
    subst this
    exact (mem_normLine raw 9 (mem_keyToken raw 9 hr).1).1 rfl
  · refine ⟨tableOf lc (str "key\tvalue"), Parse_eq lc _, ?_, rfl⟩
    intro q
    rw [tableOf_keys]
    have hl : linesOf (str "key\tvalue") = [str "key\tvalue"] := by decide
    have h3 : isEntryLine (str "key\tvalue") = true := by decide
    have h4 : ToLower lc (keyToken (str "key\tvalue")) = str "key" := rfl
    rw [hl]
    simp only [List.mem_singleton]
    constructor
    · rintro ⟨raw, rfl, -, hk⟩
      rw [← hk, h4]
    · intro hq
      exact ⟨_, rfl, h3, by rw [h4, hq]⟩

/-- C14 fails on the code for `Integer`: its errors carry the `String` tag,
not the `Integer` tag, both for an absent key (`ENONE`) and for a value that
does not parse (`EBADTYPE`), while `Bool`, `Array` and `String` carry their
own tag. -/
theorem integer_error_tag_is_string :
    (Parse id (str "n x\nf")).map
        (fun c => (c.Integer id (str "Missing"), c.Integer id (str "N"),
          c.Array id (str "Missing"), c.String id (str "F"), c.Bool id (str "N"))) =
      some (some (0, some ⟨.ENONE, str "missing", .String⟩),
        some (0, some ⟨.EBADTYPE, str "n", .String⟩),
        ([], some ⟨.ENONE, str "missing", .Array⟩),
        ([], some ⟨.EBADTYPE, str "f", .String⟩),
        (false, some ⟨.EBADTYPE, str "n", .Bool⟩)) ∧
      VarType.String ≠ VarType.Integer :=
  ⟨rfl, by decide⟩

/-- C15, as stated, fails: the line `"k v,"` stores the two-element array
`["v", ""]`, not the one-element array `["v"]`. -/
theorem trailing_comma_two_elements :
    (Parse id (str "k v,")).map (fun c => c.Array id (str "k")) =
        some ([str "v", []], none) ∧
      [str "v", []] ≠ [str "v"] := by
  decide

/-- C15, amended: `Parse` never stores an array with exactly one element,
with or without a trailing comma. A stored array is the list of trimmed comma
pieces of a value part that holds a comma, one more than its commas and so at
least two; the line `"k v,"` stores `["v", ""]`, the empty piece after the
trailing comma being kept. -/
theorem array_never_singleton (lc : Nat → Nat) (buf : List Nat) :
    ∃ c, Parse lc buf = some c ∧
      (∀ q l t, c.m q = some ⟨t, .strings l⟩ → l.length ≠ 1 ∧ 2 ≤ l.length) ∧
      (∀ name l, c.Array lc name = (l, none) → l.length ≠ 1 ∧ 2 ≤ l.length) ∧
      (Parse lc (str "k v,")).map (fun c => c.Array lc (str "k")) =
        some ([str "v", []], none) := by
  have hS : ∀ q l t, (tableOf lc buf).m q = some ⟨t, .strings l⟩ →
      l.length ≠ 1 ∧ 2 ≤ l.length := by
    intro q l t he
    obtain ⟨raw, -, he2⟩ := lookup_some_entryOf lc buf q _ he
    obtain ⟨-, v, -, hc, rfl⟩ := entryOf_strings raw l t he2.symm
    have hpos : 0 < v.count 44 := List.count_pos_iff.mpr hc
    rw [List.length_map, Split_length]
    omega
  refine ⟨tableOf lc buf, Parse_eq lc buf, hS, ?_, rfl⟩
  intro name l h
  cases hm : (tableOf lc buf).m (ToLower lc name) with
  | none => simp [Config.Array, hm] at h
  | some e =>
    rcases e with ⟨t, v⟩
    simp only [Config.Array, hm] at h
    by_cases ht : t = .Array
    · subst ht
      cases v with
      | bool b => simp at h
      | string s => simp at h
      | strings l1 =>
        simp only [ne_eq, not_true_eq_false, if_false, Prod.mk.injEq, and_true] at h
        subst h
        exact hS _ _ _ hm
    · simp [ht] at h

/-- C16: on a table produced by `Parse`, `Bool` returns `(false, nil)` if and
only if the key is absent. Every Bool-tagged entry holds `true`, so a present
key gives `(true, nil)` or an `EBADTYPE` error, never a clean `false`. -/
theorem bool_false_iff_absent (lc : Nat → Nat) (buf : List Nat) :
    ∃ c, Parse lc buf = some c ∧
      (∀ name, c.Bool lc name = (false, none) ↔ c.m (ToLower lc name) = none) ∧
      (∀ q e, c.m q = some e → e.Typ = .Bool → e.Val = .bool true) ∧
      (∀ name, (c.m (ToLower lc name)).isSome = true →
        c.Bool lc name = (true, none) ∨
        c.Bool lc name = (false, some ⟨.EBADTYPE, ToLower lc name, .Bool⟩)) := by
  have hB : ∀ q e, (tableOf lc buf).m q = some e → e.Typ = .Bool → e.Val = .bool true := by
    intro q e he ht
    obtain ⟨raw, -, rfl⟩ := lookup_some_entryOf lc buf q e he
    have hw := entryOf_wellTyped raw
    generalize hg : entryOf raw = e at ht hw
    rcases e with ⟨t, v⟩
    simp only at ht
    subst ht
    cases v with
    | bool b =>
      obtain ⟨-, hb, -⟩ := entryOf_bool raw b _ hg
      rw [hb]
    | strings l => simp [confvar.wellTyped] at hw
    | string s => simp [confvar.wellTyped] at hw
  have hP : ∀ name e, (tableOf lc buf).m (ToLower lc name) = some e →
      (tableOf lc buf).Bool lc name = (true, none) ∨
      (tableOf lc buf).Bool lc name = (false, some ⟨.EBADTYPE, ToLower lc name, .Bool⟩) := by
    intro name e he
    by_cases ht : e.Typ = .Bool
    · left
      have hv := hB _ e he ht
      simp [Config.Bool, he, ht, hv]
    · right
      simp [Config.Bool, he, ht]
  refine ⟨tableOf lc buf, Parse_eq lc buf, ?_, hB, ?_⟩
  · intro name
    constructor
    · intro h
      cases hm : (tableOf lc buf).m (ToLower lc name) with
      | none => rfl
      | some e =>
        rcases hP name e hm with h1 | h1 <;> (rw [h1] at h; simp at h)
    · intro h
      simp [Config.Bool, h]
  · intro name hs
    obtain ⟨e, he⟩ := Option.isSome_iff_exists.mp hs
    exact hP name e he

/-! ## Shape of stored strings and keys -/

theorem normLine_getLast_not_space (raw : List Nat) (r : Nat)
    (h : (normLine raw).getLast? = some r) : IsSpace r = false := by
  unfold normLine Replace at h
  rw [List.getLast?_map] at h
  cases hT : (TrimSpace raw).getLast? with
  | none => rw [hT] at h; simp at h
  | some z =>
    rw [hT] at h
    simp only [Option.map_some', Option.some.injEq] at h
    rw [← h, IsSpace_tab_to_space]
    exact TrimSpace_getLast_not_space raw z hT

theorem TrimSpace_ne_nil (v : List Nat) (z : Nat) (hz : v.getLast? = some z)
    (hs : IsSpace z = false) : TrimSpace v ≠ [] := by
  unfold TrimSpace
  intro h
  rw [List.rdropWhile_eq_nil_iff] at h
  have hD : List.dropWhile IsSpace v ≠ [] := by
    intro hD
    rw [List.dropWhile_eq_nil_iff] at hD
    have := hD z (List.mem_of_mem_getLast? hz)
    rw [hs] at this
    exact absurd this (by decide)
  obtain ⟨pre, hpre⟩ := List.dropWhile_suffix IsSpace (l := v)
  have hl : (List.dropWhile IsSpace v).getLast? = some z := by
    rw [← hpre, List.getLast?_append_of_ne_nil _ hD] at hz
    exact hz
  have := h z (List.mem_of_mem_getLast? hl)
  rw [hs] at this
  exact absurd this (by decide)

theorem valuePart_trim_ne_nil (raw v : List Nat) (hv : valuePart raw = some v) :
    TrimSpace v ≠ [] := by
  unfold valuePart at hv
  have hsplit := List.takeWhile_append_dropWhile (fun r => r != 32) (normLine raw)
  cases hD : List.dropWhile (fun r => r != 32) (normLine raw) with
  | nil => rw [hD] at hv; simp at hv
  | cons a t =>
    rw [hD] at hv hsplit
    simp only [Option.some.injEq] at hv
    subst hv
    have ha : a = 32 := by
      have := List.head?_dropWhile_not (fun r => r != 32) (normLine raw)
      rw [hD] at this
      simpa using this
    subst ha
    have hlast := normLine_getLast_not_space raw
    rw [← hsplit] at hlast
    cases t with
    | nil =>
      have := hlast 32 (by simp)
      exact absurd this (by decide)
    | cons b t1 =>
      have hne : b :: t1 ≠ [] := by simp
      obtain ⟨z, hz⟩ : ∃ z, (b :: t1).getLast? = some z :=
        ⟨_, List.getLast?_eq_getLast _ hne⟩
      have hz2 : (List.takeWhile (fun r => r != 32) (normLine raw) ++ 32 :: b :: t1).getLast? =
          some z := by
        have e : List.takeWhile (fun r => r != 32) (normLine raw) ++ 32 :: b :: t1 =
            (List.takeWhile (fun r => r != 32) (normLine raw) ++ [32]) ++ (b :: t1) := by simp
        rw [e, List.getLast?_append_of_ne_nil _ hne]
        exact hz
      exact TrimSpace_ne_nil _ z hz (hlast z hz2)

theorem TrimSpace_append_spaces (key ws : List Nat) (hk : key ≠ [])
    (hks : ∀ r ∈ key, IsSpace r = false) (hws : ∀ r ∈ ws, IsSpace r = true) :
    TrimSpace (key ++ ws) = key := by
  have h1 : List.dropWhile IsSpace (key ++ ws) = key ++ ws := by
    cases key with
    | nil => exact absurd rfl hk
    | cons a t =>
      have := hks a (List.mem_cons_self _ _)
      simp [List.dropWhile_cons, this]
  have h2 : List.rdropWhile IsSpace (key ++ ws) = List.rdropWhile IsSpace key := by
    unfold List.rdropWhile
    rw [List.reverse_append, List.dropWhile_append_of_pos]
    intro r hr
    exact hws r (List.mem_reverse.mp hr)
  have h3 := TrimSpace_eq_self key
    (fun r hr => hks r (List.mem_of_mem_head? hr))
    (fun r hr => hks r (List.mem_of_mem_getLast? hr))
  unfold TrimSpace at h3 ⊢
  rw [h1, h2]
  have h4 : List.dropWhile IsSpace key = key := by
    cases key with
    | nil => rfl
    | cons a t =>
      have := hks a (List.mem_cons_self _ _)
      simp [List.dropWhile_cons, this]
  rw [h4] at h3
  exact h3

theorem key_only_line (key ws : List Nat) (hk : key ≠ [])
    (hks : ∀ r ∈ key, IsSpace r = false)
    (hk0 : key.head? ≠ some 35 ∧ key.head? ≠ some 59)
    (hws : ∀ r ∈ ws, IsSpace r = true) :
    isEntryLine (key ++ ws) = true ∧ keyToken (key ++ ws) = key ∧
      valuePart (key ++ ws) = none := by
  have hT := TrimSpace_append_spaces key ws hk hks hws
  have hR : Replace key 9 32 = key := by
    unfold Replace
    conv_rhs => rw [← List.map_id key]
    apply List.map_congr_left
    intro r hr
    have : r ≠ 9 := by
      intro e
      have := hks r hr
      rw [e] at this
      exact absurd this (by decide)
    simp [this]
  have hk32 : ∀ r ∈ key, (r != 32) = true := by
    intro r hr
    have := hks r hr
    have h32 : r ≠ 32 := by
      intro e
      rw [e] at this
      exact absurd this (by decide)
    simpa using h32
  refine ⟨?_, ?_, ?_⟩
  · unfold isEntryLine
    rw [hT]
    cases key with
    | nil => exact absurd rfl hk
    | cons a t =>
      have h35 : a ≠ 35 := fun e => hk0.1 (by rw [e]; rfl)
      have h59 : a ≠ 59 := fun e => hk0.2 (by rw [e]; rfl)
      simp [h35, h59]
  · unfold keyToken normLine
    rw [hT, hR]
    exact List.takeWhile_eq_self_iff.mpr hk32
  · unfold valuePart normLine
    rw [hT, hR, List.dropWhile_eq_nil_iff.mpr hk32]

/-- C17: every String-tagged value stored by `Parse` is non-empty, neither
starts nor ends with whitespace, and holds no comma, tab or newline; a key
followed only by whitespace is stored as a Bool flag, never as an empty
String. -/
theorem stored_string_shape (lc : Nat → Nat) (buf : List Nat) :
    (∃ c, Parse lc buf = some c ∧
      ∀ q s t, c.m q = some ⟨t, .string s⟩ →
        t = .String ∧ s ≠ [] ∧
        (∀ r, s.head? = some r → IsSpace r = false) ∧
        (∀ r, s.getLast? = some r → IsSpace r = false) ∧
        44 ∉ s ∧ 9 ∉ s ∧ 10 ∉ s) ∧
    (∀ key ws : List Nat, key ≠ [] → (∀ r ∈ key, IsSpace r = false) →
      key.head? ≠ some 35 ∧ key.head? ≠ some 59 →
      (∀ r ∈ ws, IsSpace r = true) → 10 ∉ ws →
      ∃ c, Parse lc (key ++ ws) = some c ∧
        c.m (ToLower lc key) = some ⟨.Bool, .bool true⟩ ∧ c.Bool lc key = (true, none)) ∧
    (Parse lc (str "name \t ")).map
        (fun c => (c.Bool lc (str "name"), c.String lc (str "name"))) =
      some ((true, none), ([], some ⟨.EBADTYPE, str "name", .String⟩)) := by
  refine ⟨⟨tableOf lc buf, Parse_eq lc buf, ?_⟩, ?_, rfl⟩
  · intro q s t he
    obtain ⟨raw, hL, he2⟩ := lookup_some_entryOf lc buf q _ he
    obtain ⟨ht, v, hv, hc, rfl⟩ := entryOf_string raw s t he2.symm
    obtain ⟨hmem, -, -⟩ := lastLineFor_some lc q raw _ hL
    have h10 : 10 ∉ raw := not_mem_of_mem_Split 10 buf raw hmem
    refine ⟨ht, valuePart_trim_ne_nil raw v hv, TrimSpace_head_not_space v,
      TrimSpace_getLast_not_space v, ?_, ?_, ?_⟩
    · exact fun hm => hc (mem_of_mem_TrimSpace v 44 hm)
    · exact fun hm =>
        (mem_normLine raw 9 (mem_valuePart raw v hv 9 (mem_of_mem_TrimSpace v 9 hm))).1 rfl
    · intro hm
      rcases (mem_normLine raw 10
        (mem_valuePart raw v hv 10 (mem_of_mem_TrimSpace v 10 hm))).2 with h | h
      · exact h10 h
      · exact absurd h (by decide)
  · intro key ws hk hks hk0 hws hw10
    obtain ⟨hE, hK, hV⟩ := key_only_line key ws hk hks hk0 hws
    have h10 : 10 ∉ key ++ ws := by
      simp only [List.mem_append, not_or]
      exact ⟨fun h => absurd (hks 10 h) (by decide), hw10⟩
    have hL := lastLineFor_single lc (key ++ ws) h10 hE
    rw [hK] at hL
    have hm := lookup_of_lastLineFor lc _ key _ hL
    have he : entryOf (key ++ ws) = ⟨.Bool, .bool true⟩ := by
      unfold entryOf
      rw [hV]
    rw [he] at hm
    refine ⟨tableOf lc (key ++ ws), Parse_eq lc _, hm, ?_⟩
    simp only [Config.Bool, hm]
    rfl

theorem keyToken_head (raw : List Nat) (he : isEntryLine raw = true) :
    ∃ b t, keyToken raw = b :: t ∧ b ≠ 35 ∧ b ≠ 59 := by
  unfold isEntryLine at he
  have hh := TrimSpace_head_not_space raw
  unfold keyToken normLine
  cases hT : TrimSpace raw with
  | nil => rw [hT] at he; simp at he
  | cons b t =>
    rw [hT] at he hh
    have hb := hh b rfl
    have h9 : b ≠ 9 := by
      intro e
      rw [e] at hb
      exact absurd hb (by decide)
    have h32 : b ≠ 32 := by
      intro e
      rw [e] at hb
      exact absurd hb (by decide)
    simp only [bne_iff_ne, ne_eq, Bool.and_eq_true] at he
    refine ⟨b, List.takeWhile (fun r => r != 32) (Replace t 9 32), ?_, he.1, he.2⟩
    simp [Replace, h9, h32]

theorem unicodeToLower_idem (lc : Nat → Nat) (hlc : CaseTableSound lc) (r : Nat) :
    unicodeToLower lc (unicodeToLower lc r) = unicodeToLower lc r := by
  unfold unicodeToLower
  by_cases h1 : r ≤ 0x7F
  · by_cases h2 : 65 ≤ r ∧ r ≤ 90
    · have h3 : r + 32 ≤ 0x7F := by omega
      have h4 : ¬ (65 ≤ r + 32 ∧ r + 32 ≤ 90) := by omega
      simp only [h1, h2, h3, h4, and_self, if_true, if_false]
    · simp only [h1, h2, if_true, if_false]
  · simp only [h1, if_false]
    rcases hlc r (by omega) with ⟨h3, h4⟩ | h3
    · have h5 : ¬ (lc r ≤ 0x7F) := by omega
      simp only [h5, if_false, h4]
    · have h5 : lc r ≤ 0x7F := by omega
      have h6 : ¬ (65 ≤ lc r ∧ lc r ≤ 90) := by omega
      simp only [h5, h6, if_true, if_false]

/-- C18: given that the case table above ASCII yields either a rune above
ASCII that it leaves fixed or a lowercase ASCII letter, every key of the table
`Parse` returns is non-empty, holds no space, tab or newline, does not begin
with `#` or `;`, and is unchanged by lowercasing. -/
theorem stored_key_shape (lc : Nat → Nat) (hlc : CaseTableSound lc) (buf : List Nat) :
    ∃ c, Parse lc buf = some c ∧
      ∀ q, (c.m q).isSome = true →
        q ≠ [] ∧ 32 ∉ q ∧ 9 ∉ q ∧ 10 ∉ q ∧
        q.head? ≠ some 35 ∧ q.head? ≠ some 59 ∧ ToLower lc q = q := by
  refine ⟨tableOf lc buf, Parse_eq lc buf, ?_⟩
  intro q hq
  obtain ⟨raw, hmem, he, rfl⟩ := (tableOf_keys lc buf q).mp hq
  have h10 : 10 ∉ raw := not_mem_of_mem_Split 10 buf raw hmem
  obtain ⟨b, t, hkt, hb35, hb59⟩ := keyToken_head raw he
  have hnot : ∀ x, x < 65 → x ∈ ToLower lc (keyToken raw) → x ∈ keyToken raw := by
    intro x hx hm
    unfold ToLower at hm
    obtain ⟨r, hr, hrx⟩ := List.mem_map.mp hm
    have := unicodeToLower_below_letters lc hlc r x hx hrx
    subst this
    exact hr
  refine ⟨?_, ?_, ?_, ?_, ?_, ?_, ?_⟩
  · rw [hkt]
    simp [ToLower]
  · exact fun hm => (mem_keyToken raw 32 (hnot 32 (by decide) hm)).2 rfl
  · exact fun hm => (mem_normLine raw 9 (mem_keyToken raw 9 (hnot 9 (by decide) hm)).1).1 rfl
  · intro hm
    rcases (mem_normLine raw 10 (mem_keyToken raw 10 (hnot 10 (by decide) hm)).1).2 with h | h
    · exact h10 h
    · exact absurd h (by decide)
  · rw [hkt]
    simp only [ToLower, List.map_cons, List.head?_cons, ne_eq, Option.some.injEq]
    exact fun h => hb35 (unicodeToLower_below_letters lc hlc b 35 (by decide) h)
  · rw [hkt]
    simp only [ToLower, List.map_cons, List.head?_cons, ne_eq, Option.some.injEq]
    exact fun h => hb59 (unicodeToLower_below_letters lc hlc b 59 (by decide) h)
  · unfold ToLower
    rw [List.map_map]
    apply List.map_congr_left
    intro r _
    exact unicodeToLower_idem lc hlc r

theorem stored_key_shape_witness :
    CaseTableSound id ∧
      ∃ c, Parse id (str "# c\n  Listen\t0.0.0.0\nDEBUG") = some c ∧
        (c.m (str "listen")).isSome = true ∧ (c.m (str "debug")).isSome = true ∧
        ∀ q, (c.m q).isSome = true →
          q ≠ [] ∧ 32 ∉ q ∧ 9 ∉ q ∧ 10 ∉ q ∧
          q.head? ≠ some 35 ∧ q.head? ≠ some 59 ∧ ToLower id q = q := by
  refine ⟨fun _ h => Or.inl ⟨h, rfl⟩, ?_⟩
  obtain ⟨c, hc, h⟩ :=
    stored_key_shape id (fun _ h => Or.inl ⟨h, rfl⟩) (str "# c\n  Listen\t0.0.0.0\nDEBUG")
  have hk : (Parse id (str "# c\n  Listen\t0.0.0.0\nDEBUG")).map
      (fun c => ((c.m (str "listen")).isSome, (c.m (str "debug")).isSome)) =
      some (true, true) := by decide
  rw [hc] at hk
  simp only [Option.map_some', Option.some.injEq, Prod.mk.injEq] at hk
  exact ⟨c, hc, hk.1, hk.2, h⟩

theorem SplitN_length (s : List Nat) (sep : Nat) :
    (SplitN s sep).length = 1 ∨ (SplitN s sep).length = 2 := by
  unfold SplitN
  split
  · exact Or.inl rfl
  · exact Or.inr rfl

/-- C19: `Parse` is total on its buffer. For every buffer it returns a table,
and the loop body returns a table on every line and every table: none of the
index accesses `line[0]`, `parts[0]`, `parts[1]` is out of range, the split
giving one or two parts. -/
theorem parse_total (lc : Nat → Nat) (buf : List Nat) :
    (∃ c, Parse lc buf = some c) ∧
      (∀ c raw, ∃ c1, parseLine lc c raw = some c1) ∧
      (∀ s : List Nat, (SplitN s 32).length = 1 ∨ (SplitN s 32).length = 2) ∧
      (∃ c, Parse lc [] = some c ∧ ∀ q, c.m q = none) ∧
      (Parse lc (str " \n#\n;\n \t x \n\nk ,\n,")).isSome = true := by
  refine ⟨⟨_, Parse_eq lc buf⟩, fun c raw => ⟨_, parseLine_eq lc c raw⟩,
    fun s => SplitN_length s 32, ⟨tableOf lc [], Parse_eq lc [], fun _ => rfl⟩, rfl⟩

theorem TrimSpace_concat_cr (l : List Nat) : TrimSpace (l ++ [13]) = TrimSpace l := by
  unfold TrimSpace
  rw [List.dropWhile_append]
  cases hD : List.dropWhile IsSpace l with
  | nil =>
    have h13 : IsSpace 13 = true := rfl
    simp [h13]
  | cons a t =>
    simp only [List.isEmpty_cons, Bool.false_eq_true, if_false]
    exact List.rdropWhile_concat_pos IsSpace (a :: t) 13 rfl

theorem dropCR_cons (r : Nat) (rest : List Nat) :
    dropCR (r :: rest) =
      if r = 13 ∧ rest.head? = some 10 then dropCR rest else r :: dropCR rest := rfl

theorem Split_dropCR (buf : List Nat) :
    List.Forall₂ (fun a b => b = a ∨ b = a ++ [13]) (Split 10 (dropCR buf)) (Split 10 buf) := by
  induction buf with
  | nil => exact List.Forall₂.cons (Or.inl rfl) List.Forall₂.nil
  | cons r rest ih =>
    rw [dropCR_cons]
    by_cases h : r = 13 ∧ rest.head? = some 10
    · rw [if_pos h]
      obtain ⟨rfl, h10⟩ := h
      cases rest with
      | nil => simp at h10
      | cons x rest1 =>
        simp only [List.head?_cons, Option.some.injEq] at h10
        subst h10
        rw [Split_cons_eq] at ih
        obtain ⟨p, ps, h1, h2⟩ := Split_cons_ne 10 13 (10 :: rest1) (by decide)
        rw [Split_cons_eq] at h1
        simp only [List.cons.injEq] at h1
        rw [h2, ← h1.1, ← h1.2]
        cases ih with
        | cons hab htl =>
          refine List.Forall₂.cons ?_ htl
          rcases hab with e | e
          · right
            rw [← e]
            rfl
          · exact absurd e.symm (by simp)
    · rw [if_neg h]
      by_cases hr : r = 10
      · subst hr
        rw [Split_cons_eq, Split_cons_eq]
        exact List.Forall₂.cons (Or.inl rfl) ih
      · obtain ⟨p, ps, h1, h2⟩ := Split_cons_ne 10 r rest hr
        obtain ⟨p1, ps1, h3, h4⟩ := Split_cons_ne 10 r (dropCR rest) hr
        rw [h2, h4]
        rw [h1, h3] at ih
        cases ih with
        | cons hab htl =>
          refine List.Forall₂.cons ?_ htl
          rcases hab with e | e
          · left
            rw [e]
          · right
            rw [e]
            rfl

theorem stepLine_of_cr (lc : Nat → Nat) (c : Config) (a b : List Nat)
    (h : b = a ∨ b = a ++ [13]) : stepLine lc c a = stepLine lc c b := by
  have hT : TrimSpace a = TrimSpace b := by
    rcases h with rfl | rfl
    · rfl
    · exact (TrimSpace_concat_cr a).symm
  apply stepLine_congr
  · unfold normLine
    rw [hT]
  · unfold isEntryLine
    rw [hT]

theorem foldl_stepLine_of_cr (lc : Nat → Nat) (xs ys : List (List Nat))
    (h : List.Forall₂ (fun a b => b = a ∨ b = a ++ [13]) xs ys) (c : Config) :
    xs.foldl (stepLine lc) c = ys.foldl (stepLine lc) c := by
  induction h generalizing c with
  | nil => rfl
  | cons hab _ ih =>
    rw [List.foldl_cons, List.foldl_cons, stepLine_of_cr lc c _ _ hab]
    exact ih _

/-- C20: line endings do not matter. `Parse` yields the same table for the
input and for the input with every `"\r\n"` replaced by `"\n"`: the carriage
return left at the end of a split line is removed by the whitespace trim. -/
theorem line_endings_irrelevant (lc : Nat → Nat) (buf : List Nat) :
    Parse lc (dropCR buf) = Parse lc buf ∧
      (∀ l : List Nat, TrimSpace (l ++ [13]) = TrimSpace l) ∧
      dropCR (str "a 1\r\nB\r\n\r\nc x,y\r\n") = str "a 1\nB\n\nc x,y\n" ∧
      (Parse lc (str "a 1\r\nB\r\n\r\nc x,y\r\n")).map
          (fun c => (c.String lc (str "a"), c.Bool lc (str "b"), c.Array lc (str "c"))) =
        some ((str "1", none), (true, none), ([str "x", str "y"], none)) := by
  refine ⟨?_, TrimSpace_concat_cr, by decide, rfl⟩
  rw [Parse_eq, Parse_eq]
  unfold tableOf linesOf
  rw [foldl_stepLine_of_cr lc _ _ (Split_dropCR buf)]
